import Mathlib

/-!
Shallow embedding of the browser SVG editor's mutable-tree editing engine
(source: `src/unnamed/part_001`, the React `App` module).  JavaScript strings
are Lean `String`s, `Record<string, string>` attribute bags are association
lists in insertion order (JS objects preserve insertion order for string
keys), `Set<string>` selections are duplicate-free lists in insertion order,
and the nullable tree is `Option SvgNode`.  All functions are total and
computable; the JS string operations `split`, `trim` and template rendering
are modelled character-exactly below.
-/

namespace SvgEditor

/-- The `SvgNode` record from the source: `{ id, tag, attrs, children, text? }`.
`attrs` is an insertion-ordered association list standing for the JS object. -/
inductive SvgNode : Type where
  | mk (id : String) (tag : String) (attrs : List (String × String))
      (children : List SvgNode) (text : Option String)
deriving Repr

def SvgNode.id : SvgNode → String
  | .mk i _ _ _ _ => i

def SvgNode.tag : SvgNode → String
  | .mk _ t _ _ _ => t

def SvgNode.attrs : SvgNode → List (String × String)
  | .mk _ _ a _ _ => a

def SvgNode.children : SvgNode → List SvgNode
  | .mk _ _ _ c _ => c

def SvgNode.text : SvgNode → Option String
  | .mk _ _ _ _ t => t

/-- JS `obj[key]` on a string-keyed record: first (unique) binding, if any. -/
def lookupAttr : List (String × String) → String → Option String
  | [], _ => none
  | (k, v) :: rest, key => if k = key then some v else lookupAttr rest key

/-- JS `obj[key] = value`: overwrite in place if the key exists (keeping its
position in insertion order), otherwise append. -/
def setAttr : List (String × String) → String → String → List (String × String)
  | [], key, value => [(key, value)]
  | (k, v) :: rest, key, value =>
    if k = key then (k, value) :: rest else (k, v) :: setAttr rest key value

/-- JS `delete obj[key]`. -/
def removeAttr (attrs : List (String × String)) (key : String) :
    List (String × String) :=
  attrs.filter (fun p => p.1 ≠ key)

/-- The characters JS `String.prototype.trim` strips (ASCII fragment; the
style strings the editor manipulates contain no exotic whitespace). -/
def isJsSpace (c : Char) : Bool :=
  c = ' ' || c = '\t' || c = '\n' || c = '\r' || c = '\x0b' || c = '\x0c'

/-- JS `s.trim()` on the character list. -/
def trimChars (l : List Char) : List Char :=
  ((l.dropWhile isJsSpace).reverse.dropWhile isJsSpace).reverse

/-- JS `s.trim()`. -/
def jsTrim (s : String) : String := String.mk (trimChars s.toList)

/-- JS `s.split(sep)` for a single-character separator: the list of (possibly
empty) pieces between occurrences of `sep`; never the empty list. -/
def splitOnChar (c : Char) : List Char → List (List Char)
  | [] => [[]]
  | x :: xs =>
    if x = c then [] :: splitOnChar c xs
    else (x :: (splitOnChar c xs).headD []) :: (splitOnChar c xs).tail

/-- JS `s.split(sep)` on `String`s. -/
def jsSplit (sep : Char) (s : String) : List String :=
  (splitOnChar sep s.toList).map String.mk

/-- JS `array.join(sep)`: empty string on `[]`, else fold the separator in
between. -/
def jsJoin (sep : String) : List String → String
  | [] => ""
  | x :: xs => xs.foldl (fun acc y => acc ++ sep ++ y) x

/-- The shared `style`-string parsing pipeline of `getStyleValue` and
`applyStyleValue`:
`style.split(';').map(trim).filter(Boolean).map(p => p.split(':').map(trim))`. -/
def styleEntries (style : String) : List (List String) :=
  (((jsSplit ';' style).map jsTrim).filter (fun p => p ≠ "")).map
    (fun p => (jsSplit ':' p).map jsTrim)

/-- `getStyleValue(style, key)` from the source: find the first parsed entry
whose head is `key` and return its second component (`found[1]`, which is JS
`undefined` — here `none` — when the entry has no `:`). -/
def getStyleValue (style : Option String) (key : String) : Option String :=
  match style with
  | none => none
  | some s =>
    match (styleEntries s).find? (fun e => e.headD "" = key) with
    | some found => found.get? 1
    | none => none

/-- `applyStyleValue(style, key, value)` from the source: drop entries for
`key` (and empty keys), append `key: value` when `value` is truthy, and
re-render joined by `"; "`.  A missing second component renders as the JS
string `"undefined"`, exactly as the template literal would. -/
def applyStyleValue (style : Option String) (key : String)
    (value : Option String) : String :=
  let entries :=
    match style with
    | some s =>
      (styleEntries s).filter (fun e => e.headD "" ≠ key ∧ (e.headD "").length > 0)
    | none => []
  let entries :=
    match value with
    | some v => if v.length > 0 then entries ++ [[key, v]] else entries
    | none => entries
  if entries.length = 0 then ""
  else
    jsJoin "; "
      (entries.map (fun e => (e.headD "undefined") ++ ": " ++ ((e.get? 1).getD "undefined")))

/-- `getAttrOrStyle(node, key)` from the source — the spec's
`getEffective(node, key)`: `node.attrs[key] ?? getStyleValue(node.attrs.style, key)`. -/
def getAttrOrStyle (node : Option SvgNode) (key : String) : Option String :=
  match node with
  | none => none
  | some n =>
    match lookupAttr n.attrs key with
    | some v => some v
    | none => getStyleValue (lookupAttr n.attrs "style") key

/-! ### Tree model operations (source lines 688–868) -/

mutual

/-- `cloneNode(node)` from the source: deep copy — fresh attribute object and
recursively cloned children, same data.  On pure values a deep copy is the
value itself; `cloneNode_eq` below proves this, which is why functions that
in JS recurse over `cloneNode(node).children` are embedded as recursing over
`node.children`. -/
def cloneNode : SvgNode → SvgNode
  | .mk i t a cs txt => .mk i t a (cloneChildren cs) txt

/-- `node.children.map(cloneNode)`. -/
def cloneChildren : List SvgNode → List SvgNode
  | [] => []
  | c :: cs => cloneNode c :: cloneChildren cs

end

mutual

/-- `serializeNode(node)` from the source: text leaves emit their text, an
element emits `<tag k="v" ...>` (skipping `data-id`), its own text, the
serialized children in order, and `</tag>` — no escaping anywhere. -/
def serializeNode : SvgNode → String
  | .mk _ tag attrs children text =>
    if tag = "#text" then text.getD ""
    else
      let attrString := jsJoin " "
        (((attrs.filter (fun p => p.1 ≠ "data-id")).map
          (fun p => p.1 ++ "=\"" ++ p.2 ++ "\"")))
      let openTag :=
        if attrString.length ≠ 0 then "<" ++ tag ++ " " ++ attrString ++ ">"
        else "<" ++ tag ++ ">"
      openTag ++ text.getD "" ++ serializeChildren children ++ "</" ++ tag ++ ">"

/-- `children.map(serializeNode).join('')`. -/
def serializeChildren : List SvgNode → String
  | [] => ""
  | c :: cs => serializeNode c ++ serializeChildren cs

end

mutual

/-- DFS over one node (the non-null body of `findNode`). -/
def findNodeIn : SvgNode → String → Option SvgNode
  | .mk i t a cs txt, id =>
    if i = id then some (.mk i t a cs txt) else findNodeInList cs id

/-- DFS over a child list, first hit wins. -/
def findNodeInList : List SvgNode → String → Option SvgNode
  | [], _ => none
  | c :: cs, id =>
    match findNodeIn c id with
    | some found => some found
    | none => findNodeInList cs id

end

/-- `findNode(node, id)` from the source: depth-first search, `null`-tolerant. -/
def findNode (node : Option SvgNode) (id : Option String) : Option SvgNode :=
  match node, id with
  | none, _ => none
  | _, none => none
  | some n, some i => findNodeIn n i

mutual

/-- `findParent(node, targetId, parent)` from the source. -/
def findParent : SvgNode → String → Option SvgNode → Option SvgNode
  | .mk i t a cs txt, targetId, parent =>
    if i = targetId then parent
    else findParentInList cs targetId (.mk i t a cs txt)

def findParentInList : List SvgNode → String → SvgNode → Option SvgNode
  | [], _, _ => none
  | c :: cs, targetId, parent =>
    match findParent c targetId (some parent) with
    | some found => some found
    | none => findParentInList cs targetId parent

end

mutual

/-- `updateNode(node, id, mutate)` from the source.  The JS version deep-clones
the node and then maps the recursion over the clone's children; since
`cloneNode` is the identity on values (`cloneNode_eq`), mapping over
`node.children` is the same function. -/
def updateNode (id : String) (mutate : SvgNode → SvgNode) : SvgNode → SvgNode
  | .mk i t a cs txt =>
    if i = id then mutate (cloneNode (.mk i t a cs txt))
    else .mk i t a (updateNodeList id mutate cs) txt

def updateNodeList (id : String) (mutate : SvgNode → SvgNode) :
    List SvgNode → List SvgNode
  | [] => []
  | c :: cs => updateNode id mutate c :: updateNodeList id mutate cs

end

mutual

/-- `updateMultipleNodes(node, ids, mutate)` from the source: clone, mutate in
place when the id is in the set, recurse into all children.  The JS code maps
the recursion over the mutated clone's children; every mutation the engine
passes to this function in the claims below (the attribute reconciler) leaves
`children` untouched, so that list is the original `children`, over which we
recurse. -/
def updateMultipleNodes (ids : List String) (mutate : SvgNode → SvgNode) :
    SvgNode → SvgNode
  | .mk i t a cs txt =>
    let next :=
      if ids.contains i then mutate (cloneNode (.mk i t a cs txt))
      else cloneNode (.mk i t a cs txt)
    .mk next.id next.tag next.attrs
      (updateMultipleNodesList ids mutate cs) next.text

def updateMultipleNodesList (ids : List String) (mutate : SvgNode → SvgNode) :
    List SvgNode → List SvgNode
  | [] => []
  | c :: cs =>
    updateMultipleNodes ids mutate c :: updateMultipleNodesList ids mutate cs

end

mutual

/-- `removeMultipleNodes(node, ids)` from the source: `null` when the node
itself is targeted, else drop targeted children and recurse into the rest.
The JS `children.filter(not targeted).map(remove!)` is fused into one walk
(`removeMultipleNodesList`), which also shows the non-null `!` assertion is
safe: surviving children are never targeted. -/
def removeMultipleNodes (ids : List String) : SvgNode → Option SvgNode
  | .mk i t a cs txt =>
    if ids.contains i then none
    else some (.mk i t a (removeMultipleNodesList ids cs) txt)

/-- `children.filter(c => !ids.has(c.id)).map(c => removeMultipleNodes(c, ids)!)`. -/
def removeMultipleNodesList (ids : List String) : List SvgNode → List SvgNode
  | [] => []
  | c :: cs =>
    if ids.contains c.id then removeMultipleNodesList ids cs
    else
      match removeMultipleNodes ids c with
      | some cc => cc :: removeMultipleNodesList ids cs
      | none => removeMultipleNodesList ids cs

end

mutual

/-- The inner `assignIds` closure of `assignNewIds`. -/
def assignIds (baseId newId : String) : SvgNode → SvgNode
  | .mk i t a cs txt =>
    let childId := if i = baseId then newId else i ++ "-copy"
    .mk childId t (setAttr a "data-id" childId) (assignIdsList baseId newId cs) txt

def assignIdsList (baseId newId : String) : List SvgNode → List SvgNode
  | [] => []
  | c :: cs => assignIds baseId newId c :: assignIdsList baseId newId cs

end

/-- `assignNewIds(node, baseId)` from the source.  The local `counter` starts
at 0 and is read only once, so the interpolation
`baseId-copy + (counter > 0 ? -counter : empty)` always yields
`baseId ++ "-copy"`; every other id in the subtree gets `-copy` appended. -/
def assignNewIds (node : SvgNode) (baseId : String) : SvgNode :=
  assignIds baseId (baseId ++ "-copy") node

mutual

/-- Preorder list of every id in the tree (every node, text leaves included);
used to state the uniqueness invariant. -/
def idsOf : SvgNode → List String
  | .mk i _ _ cs _ => i :: idsOfList cs

def idsOfList : List SvgNode → List String
  | [] => []
  | c :: cs => idsOf c ++ idsOfList cs

end

mutual

/-- The inner `getAllNodeIds` walk of `getAllSelectableIds`: preorder ids,
skipping the root id and `#text` leaves (children are walked regardless). -/
def selectableIdsAux (rootId : String) : SvgNode → List String
  | .mk i t _ cs _ =>
    (if i ≠ rootId ∧ t ≠ "#text" then [i] else []) ++
      selectableIdsAuxList rootId cs

def selectableIdsAuxList (rootId : String) : List SvgNode → List String
  | [] => []
  | c :: cs => selectableIdsAux rootId c ++ selectableIdsAuxList rootId cs

end

/-- `getAllSelectableIds(tree)` from the source. -/
def getAllSelectableIds (tree : SvgNode) : List String :=
  selectableIdsAux tree.id tree

mutual

theorem cloneNode_eq (n : SvgNode) : cloneNode n = n := by
  cases n with
  | mk i t a cs txt =>
    simp only [cloneNode, SvgNode.mk.injEq, true_and, and_true]
    exact cloneChildren_eq cs

theorem cloneChildren_eq (cs : List SvgNode) : cloneChildren cs = cs := by
  cases cs with
  | nil => rfl
  | cons c cs =>
    simp only [cloneChildren, List.cons.injEq]
    exact ⟨cloneNode_eq c, cloneChildren_eq cs⟩

end

/-! ### Editor state and the mutation/history/selection engine
(source lines 870–1651).  React `useState`/`useRef` cells become fields of
one record; each callback becomes a state-transition function.  The debounce
timer (`historySaveTimeoutRef` + `setTimeout(…, 500)`) is modelled by the
deadline it is armed for, in milliseconds. -/

structure EditorState where
  svgTree : Option SvgNode
  selectedIds : List String
  error : Option String
  history : List SvgNode
  historyIndex : Int
  latestTree : Option SvgNode
  pendingSaveDeadline : Option Nat
deriving Repr

/-- JS `new Set(prev)` + toggle (`delete` if present, `add` if absent). -/
def toggleSet (l : List String) (x : String) : List String :=
  if l.contains x then l.erase x else l ++ [x]

/-- JS `Set.add`. -/
def addSet (l : List String) (x : String) : List String :=
  if l.contains x then l else l ++ [x]

/-- JS `new Set(array)`: insertion-order deduplication. -/
def mkSet (l : List String) : List String := l.foldl addSet []

/-- `saveToHistory(tree)` from the source: truncate the redo branch at the
cursor (`history.slice(0, historyIndex + 1)`), append a deep copy of the
tree, and move the cursor to the new tail. -/
def saveToHistory (s : EditorState) (tree : Option SvgNode) : EditorState :=
  match tree with
  | none => s
  | some t =>
    let newHistory := s.history.take (s.historyIndex + 1).toNat ++ [cloneNode t]
    { s with history := newHistory, historyIndex := (newHistory.length : Int) - 1 }

/-- `updateTreeWithHistory(newTree)` from the source: snapshot, then make the
new tree live. -/
def updateTreeWithHistory (s : EditorState) (newTree : Option SvgNode) :
    EditorState :=
  match newTree with
  | none => s
  | some t =>
    { saveToHistory s (some t) with svgTree := some t, latestTree := some t }

/-- `undo()` from the source: if the cursor can move left, restore that
snapshot as the live tree.  (The lookup is `some` at every state the engine
reaches, since the cursor stays inside the history array.) -/
def undo (s : EditorState) : EditorState :=
  if s.historyIndex > 0 then
    let newIndex := s.historyIndex - 1
    match s.history.get? newIndex.toNat with
    | some t =>
      { s with historyIndex := newIndex, svgTree := some (cloneNode t),
               latestTree := some (cloneNode t) }
    | none => s
  else s

/-- `redo()` from the source: if the cursor can move right, restore that
snapshot as the live tree. -/
def redo (s : EditorState) : EditorState :=
  if s.historyIndex < (s.history.length : Int) - 1 then
    let newIndex := s.historyIndex + 1
    match s.history.get? newIndex.toNat with
    | some t =>
      { s with historyIndex := newIndex, svgTree := some (cloneNode t),
               latestTree := some (cloneNode t) }
    | none => s
  else s

/-- `handleSvgInput(value)` from the source, taking the outcome of
`parseSvgString` (an external sanitizer + DOM parser; `none` exactly when no
`<svg>` root is locatable after sanitization) as input.  On failure every
piece of state is cleared and a user-visible message is set; on success the
history is reset to the single freshly parsed snapshot and the selection to
the root id. -/
def handleSvgInput (s : EditorState) (parsed : Option SvgNode) : EditorState :=
  match parsed with
  | none =>
    { s with error := some "No <svg> tag found. Paste a valid SVG.",
             svgTree := none, latestTree := none, selectedIds := [],
             history := [], historyIndex := -1 }
  | some tree =>
    { s with error := none, history := [cloneNode tree], historyIndex := 0,
             svgTree := some tree, latestTree := some tree,
             selectedIds := [tree.id] }

/-- `handleNodeClick(nodeId, e)` from the source.  `wasDragging` stands for
the `hasDraggedRef` / 5-pixel-distance check on the tracked mouse-down
position; the root guard and the three modifier branches are verbatim. -/
def handleNodeClick (s : EditorState) (nodeId : String)
    (ctrl shift wasDragging : Bool) : EditorState :=
  match s.svgTree with
  | none => s
  | some t =>
    if nodeId = t.id then s
    else if wasDragging then s
    else if ctrl then { s with selectedIds := toggleSet s.selectedIds nodeId }
    else if shift then { s with selectedIds := addSet s.selectedIds nodeId }
    else { s with selectedIds := toggleSet s.selectedIds nodeId }

/-- `areAllSelected` from the source: the selection is nonempty and the
(nonempty) selectable-id list is wholly contained in it. -/
def areAllSelected (s : EditorState) : Bool :=
  match s.svgTree with
  | none => false
  | some t =>
    if s.selectedIds.length = 0 then false
    else
      let allIds := getAllSelectableIds t
      decide (allIds.length > 0) && allIds.all (fun id => s.selectedIds.contains id)

/-- `selectAll()` from the source: toggle between the full selectable set and
the empty set. -/
def selectAll (s : EditorState) : EditorState :=
  match s.svgTree with
  | none => s
  | some t =>
    let allIdsSet := mkSet (getAllSelectableIds t)
    { s with selectedIds := if areAllSelected s then [] else allIdsSet }

/-- `duplicateSelected()` from the source: duplicate the first selected node
(never the root), append the re-identified deep clone to its parent's
children, and select the copy. -/
def duplicateSelected (s : EditorState) : EditorState :=
  match s.svgTree, s.selectedIds with
  | some tree, firstId :: _ =>
    if firstId = tree.id then s
    else
      match findParent tree firstId none with
      | none => s
      | some parent =>
        match findNode (some tree) (some firstId) with
        | none => s
        | some nodeToDuplicate =>
          let duplicated := assignNewIds (cloneNode nodeToDuplicate) firstId
          let next := updateNode parent.id
            (fun p => .mk p.id p.tag p.attrs (p.children ++ [duplicated]) p.text)
            tree
          { updateTreeWithHistory s (some next) with
              selectedIds := [duplicated.id] }
  | _, _ => s

/-- The per-node mutation closure shared by `updateAttribute` and
`updateAttributeWithoutHistory`: for `fill`/`stroke` rewrite the `style`
entry (dropping the whole `style` attribute if it renders empty), then set
or delete the bare attribute.  The JS empty string is falsy, hence the
`value = ""` tests. -/
def reconcileAttr (key value : String) (node : SvgNode) : SvgNode :=
  let node1 :=
    if key = "fill" ∨ key = "stroke" then
      let styleValue := applyStyleValue (lookupAttr node.attrs "style") key
        (if value = "" then none else some value)
      if styleValue ≠ "" then
        .mk node.id node.tag (setAttr node.attrs "style" styleValue)
          node.children node.text
      else
        .mk node.id node.tag (removeAttr node.attrs "style")
          node.children node.text
    else node
  if value ≠ "" then
    .mk node1.id node1.tag (setAttr node1.attrs key value)
      node1.children node1.text
  else
    .mk node1.id node1.tag (removeAttr node1.attrs key)
      node1.children node1.text

/-- `updateAttribute(key, value)` from the source: immediate-commit path —
apply the reconciler to every selected node and push one history snapshot
synchronously. -/
def updateAttribute (s : EditorState) (key value : String) : EditorState :=
  if s.selectedIds.length = 0 then s
  else
    match s.svgTree with
    | none => s
    | some tree =>
      let next := updateMultipleNodes s.selectedIds (reconcileAttr key value) tree
      updateTreeWithHistory s (some next)

/-- `updateAttributeWithoutHistory(key, value)` from the source: coalesced
path — apply the reconciler to every selected node immediately, remember the
result in `latestTreeRef`, and cancel-and-rearm the 500 ms debounce timer
(`clearTimeout` + `setTimeout`), so the pending deadline becomes
`now + 500`. -/
def updateAttributeWithoutHistory (s : EditorState) (now : Nat)
    (key value : String) : EditorState :=
  if s.selectedIds.length = 0 then s
  else
    match s.svgTree with
    | none => s
    | some tree =>
      let next := updateMultipleNodes s.selectedIds (reconcileAttr key value) tree
      { s with svgTree := some next, latestTree := some next,
               pendingSaveDeadline := some (now + 500) }

/-- The body of the debounce `setTimeout` callback: save `latestTreeRef` to
history (the callback checks the ref for `null` first); the timer is spent. -/
def fireDebounce (s : EditorState) : EditorState :=
  { saveToHistory s s.latestTree with pendingSaveDeadline := none }

/-- Run the armed timer if its deadline has passed by time `now` (the
browser event loop fires due timeouts before the next input event). -/
def fireDueTimers (s : EditorState) (now : Nat) : EditorState :=
  match s.pendingSaveDeadline with
  | some d => if d ≤ now then fireDebounce s else s
  | none => s

/-- One color-drag input event at absolute time `t`: any due timer fires
first, then the edit is applied. -/
def stepColorEvent (s : EditorState) (ev : Nat × String × String) : EditorState :=
  updateAttributeWithoutHistory (fireDueTimers s ev.1) ev.1 ev.2.1 ev.2.2

/-- A burst of timed color-drag events, in order. -/
def runColorBurst (s : EditorState) (evs : List (Nat × String × String)) :
    EditorState :=
  evs.foldl stepColorEvent s

/-- Input quiesces: enough time passes that the armed timer (if any) fires. -/
def quiesce (s : EditorState) : EditorState :=
  match s.pendingSaveDeadline with
  | some _ => fireDebounce s
  | none => s

/-- The tree produced by a burst of reconciler edits on the live tree. -/
def applyBurstTree (sel : List String) (t : SvgNode)
    (evs : List (Nat × String × String)) : SvgNode :=
  evs.foldl (fun tr ev => updateMultipleNodes sel (reconcileAttr ev.2.1 ev.2.2) tr) t

/-! ### Concrete fixtures used by witnesses and counterexamples -/

/-- A plain `rect` child node. -/
def rect1 : SvgNode := .mk "r1" "rect" [("data-id", "r1"), ("width", "10")] [] none

/-- `<svg><rect id="r1" …/></svg>` as the engine stores it. -/
def rootRect : SvgNode := .mk "s" "svg" [("data-id", "s")] [rect1] none

/-- `<svg>` with two rect children `a` and `b`. -/
def twoRects : SvgNode :=
  .mk "s" "svg" [("data-id", "s")]
    [.mk "a" "rect" [("data-id", "a")] [] none,
     .mk "b" "rect" [("data-id", "b")] [] none] none

/-- Editor state builder for concrete scenarios. -/
def mkEditorState (t : Option SvgNode) (sel : List String)
    (hist : List SvgNode) (idx : Int) : EditorState :=
  { svgTree := t, selectedIds := sel, error := none, history := hist,
    historyIndex := idx, latestTree := t, pendingSaveDeadline := none }

/-! ### Claim C9 -/

/-- Claim C9: when the import pipeline finds no locatable SVG root after
sanitization (`parseSvgString` returned a `null` tree), `handleSvgInput`
recovers locally: the live tree becomes empty, the selection set becomes
empty, the history is cleared (empty sequence, cursor −1), and the
user-visible message is set.  The handler — and its embedding — is a total
function, so no exception propagates to the caller. -/
theorem claim_C9 (s : EditorState) :
    (handleSvgInput s none).svgTree = none ∧
    (handleSvgInput s none).selectedIds = [] ∧
    (handleSvgInput s none).history = [] ∧
    (handleSvgInput s none).historyIndex = -1 ∧
    (handleSvgInput s none).error = some "No <svg> tag found. Paste a valid SVG." :=
  ⟨rfl, rfl, rfl, rfl, rfl⟩

/-! ### Claim C2 -/

/-- Claim C2 counterexample: the claim says the `style` entry wins over the
bare attribute, but `getAttrOrStyle` reads `node.attrs[key] ??
getStyleValue(…)` — the bare attribute wins.  On a node with bare
`fill="red"` and `style="fill: blue"`, the style entry is `blue`, yet
`getEffective` returns `red`. -/
theorem claim_C2_counterexample :
    getStyleValue (some "fill: blue") "fill" = some "blue" ∧
    lookupAttr [("fill", "red"), ("style", "fill: blue")] "fill" = some "red" ∧
    getAttrOrStyle
        (some (.mk "a" "rect" [("fill", "red"), ("style", "fill: blue")] [] none))
        "fill" = some "red" ∧
    getAttrOrStyle
        (some (.mk "a" "rect" [("fill", "red"), ("style", "fill: blue")] [] none))
        "fill" ≠ some "blue" := by
  refine ⟨by decide, by decide, by decide, by decide⟩

/-- Claim C2 (amended): precedence is the reverse of the claim — when the
node carries a bare attribute for `key`, `getEffective(node, key)` returns
the bare attribute value even if the style string also has an entry for
`key`; the style string is consulted only when the bare attribute is
absent. -/
theorem claim_C2_amended (n : SvgNode) (key : String) :
    (∀ v, lookupAttr n.attrs key = some v → getAttrOrStyle (some n) key = some v) ∧
    (lookupAttr n.attrs key = none →
      getAttrOrStyle (some n) key = getStyleValue (lookupAttr n.attrs "style") key) := by
  constructor
  · intro v hv
    simp [getAttrOrStyle, hv]
  · intro hnone
    simp [getAttrOrStyle, hnone]

/-- Witness for `claim_C2_amended` at a concrete node carrying both a bare
`fill` and a style `fill` entry, and one carrying only the style entry. -/
theorem claim_C2_witness :
    getAttrOrStyle
        (some (.mk "a" "rect" [("fill", "red"), ("style", "fill: blue")] [] none))
        "fill" = some "red" ∧
    getAttrOrStyle (some (.mk "b" "rect" [("style", "fill: blue")] [] none)) "fill"
      = getStyleValue (some "fill: blue") "fill" := by
  constructor
  · exact (claim_C2_amended (.mk "a" "rect" [("fill", "red"), ("style", "fill: blue")] [] none)
      "fill").1 "red" (by decide)
  · have h := (claim_C2_amended (.mk "b" "rect" [("style", "fill: blue")] [] none)
      "fill").2 (by decide)
    simpa using h

/-! ### Claim C1 -/

/-- Claim C1 counterexample: with tree `twoRects` and previous selection
`{a}`, a plain (unmodified, non-drag) click on the selectable non-root node
`b` yields `{a, b}` — the other previously selected id `a` is *not*
removed — rather than exactly `{b}` as the claim states. -/
theorem claim_C1_counterexample :
    (handleNodeClick (mkEditorState (some twoRects) ["a"] [twoRects] 0)
        "b" false false false).selectedIds = ["a", "b"] ∧
    (["a", "b"] : List String) ≠ ["b"] := by
  refine ⟨by decide, by decide⟩

/-- Claim C1 (amended): a plain (unmodified, non-drag) click on a non-root
node toggles that single id's membership — removed if present, appended if
absent — and leaves every other previously selected id in the set (same
behaviour as Ctrl/Cmd+Click); the tree is untouched. -/
theorem claim_C1_amended (s : EditorState) (t : SvgNode) (nodeId : String)
    (htree : s.svgTree = some t) (hroot : nodeId ≠ t.id) :
    (handleNodeClick s nodeId false false false).selectedIds =
      (if s.selectedIds.contains nodeId then s.selectedIds.erase nodeId
       else s.selectedIds ++ [nodeId]) ∧
    (∀ x, x ∈ s.selectedIds → x ≠ nodeId →
      x ∈ (handleNodeClick s nodeId false false false).selectedIds) ∧
    (handleNodeClick s nodeId false false false).svgTree = s.svgTree := by
  have hclick : handleNodeClick s nodeId false false false =
      { s with selectedIds := toggleSet s.selectedIds nodeId } := by
    simp [handleNodeClick, htree, hroot]
  refine ⟨?_, ?_, ?_⟩
  · rw [hclick]
    simp [toggleSet]
  · intro x hx hne
    rw [hclick]
    simp only [toggleSet]
    by_cases hc : s.selectedIds.contains nodeId
    · simp only [hc, if_pos]
      exact (List.mem_erase_of_ne hne).mpr hx
    · simp only [hc, if_neg, Bool.false_eq_true, not_false_iff]
      exact List.mem_append_left _ hx
  · rw [hclick]

/-- Witness for `claim_C1_amended`: plain click on `b` with `{a}` selected
appends `b`; plain click on `a` with `{a}` selected removes it. -/
theorem claim_C1_witness :
    (handleNodeClick (mkEditorState (some twoRects) ["a"] [twoRects] 0)
        "b" false false false).selectedIds = ["a"] ++ ["b"] ∧
    (handleNodeClick (mkEditorState (some twoRects) ["a"] [twoRects] 0)
        "a" false false false).selectedIds = (["a"] : List String).erase "a" := by
  constructor
  · have h := (claim_C1_amended (mkEditorState (some twoRects) ["a"] [twoRects] 0)
      twoRects "b" rfl (by decide)).1
    simpa using h
  · have h := (claim_C1_amended (mkEditorState (some twoRects) ["a"] [twoRects] 0)
      twoRects "a" rfl (by decide)).1
    simpa using h

/-! ### Claim C3 -/

/-- Claim C3 (code bug): the uniqueness invariant fails.  Starting from
an imported `<svg><rect id="r1"/></svg>` and using only engine operations
(select-all, duplicate, plain clicks to reselect `r1`), duplicating `r1`
twice produces two distinct nodes both carrying the id `r1-copy`:
`assignNewIds` derives the copy's id as `baseId ++ "-copy"` with a local
counter that is always 0 and never consults the tree for collisions. -/
def c3Run : EditorState :=
  duplicateSelected
    (handleNodeClick
      (handleNodeClick
        (duplicateSelected
          (selectAll
            (handleSvgInput (mkEditorState none [] [] (-1)) (some rootRect))))
        "r1" false false false)
      "r1-copy" false false false)

theorem claim_C3_failing_run :
    c3Run.svgTree.map idsOf = some ["s", "r1", "r1-copy", "r1-copy"] ∧
    ((c3Run.svgTree.map idsOf).getD []).count "r1-copy" = 2 ∧
    ¬ ((c3Run.svgTree.map idsOf).getD []).Nodup := by decide

/-! ### Claim C7 -/

/-- Claim C7 counterexample: (i) import selects the root id, and a
Ctrl/Cmd+Click on `r1` keeps it, so the root id *is* a member of the
selection after a selection operation; (ii) starting from the
fully-selected state, `selectAll` twice yields the full set again, not the
empty set. -/
theorem claim_C7_counterexample :
    (handleNodeClick (handleSvgInput (mkEditorState none [] [] (-1)) (some rootRect))
        "r1" true false false).selectedIds.contains rootRect.id = true ∧
    (selectAll (selectAll (mkEditorState (some rootRect) ["r1"] [rootRect] 0))).selectedIds
      ≠ [] := by
  refine ⟨by decide, by decide⟩

theorem mem_foldl_addSet (l : List String) (acc : List String) (x : String) :
    x ∈ l.foldl addSet acc ↔ x ∈ acc ∨ x ∈ l := by
  induction l generalizing acc with
  | nil => simp
  | cons a l ih =>
    rw [List.foldl_cons, ih]
    unfold addSet
    by_cases h : acc.contains a
    · rw [if_pos h]
      have : a ∈ acc := by simpa using h
      constructor
      · rintro (hx | hx)
        · exact Or.inl hx
        · exact Or.inr (List.mem_cons_of_mem _ hx)
      · rintro (hx | hx)
        · exact Or.inl hx
        · rcases List.mem_cons.mp hx with rfl | hx
          · exact Or.inl this
          · exact Or.inr hx
    · rw [if_neg h]
      simp only [List.mem_append, List.mem_singleton, List.mem_cons]
      tauto

theorem mem_mkSet (l : List String) (x : String) : x ∈ mkSet l ↔ x ∈ l := by
  unfold mkSet
  rw [mem_foldl_addSet]
  simp

theorem mkSet_ne_nil (l : List String) (h : l ≠ []) : mkSet l ≠ [] := by
  rcases l with _ | ⟨a, l⟩
  · exact absurd rfl h
  · intro hnil
    have : a ∈ mkSet (a :: l) := (mem_mkSet _ _).mpr (List.mem_cons_self a l)
    rw [hnil] at this
    exact absurd this (List.not_mem_nil a)

mutual

theorem rootId_not_mem_selectableIdsAux (rootId : String) (n : SvgNode) :
    rootId ∉ selectableIdsAux rootId n := by
  cases n with
  | mk i t a cs txt =>
    unfold selectableIdsAux
    intro hmem
    rcases List.mem_append.mp hmem with hl | hr
    · by_cases hc : i ≠ rootId ∧ t ≠ "#text"
      · rw [if_pos hc] at hl
        exact hc.1 (List.mem_singleton.mp hl).symm
      · rw [if_neg hc] at hl
        exact List.not_mem_nil _ hl
    · exact rootId_not_mem_selectableIdsAuxList rootId cs hr

theorem rootId_not_mem_selectableIdsAuxList (rootId : String) (cs : List SvgNode) :
    rootId ∉ selectableIdsAuxList rootId cs := by
  cases cs with
  | nil => exact List.not_mem_nil _
  | cons c cs =>
    unfold selectableIdsAuxList
    intro hmem
    rcases List.mem_append.mp hmem with hl | hr
    · exact rootId_not_mem_selectableIdsAux rootId c hl
    · exact rootId_not_mem_selectableIdsAuxList rootId cs hr

end

theorem contains_iff_mem (l : List String) (a : String) :
    l.contains a = true ↔ a ∈ l := by
  simp [List.elem_iff]

theorem selectAll_svgTree (s : EditorState) : (selectAll s).svgTree = s.svgTree := by
  unfold selectAll
  cases h : s.svgTree <;> simp [h]

theorem handleNodeClick_eq (s : EditorState) (t : SvgNode)
    (htree : s.svgTree = some t) (nodeId : String) (ctrl shift wd : Bool) :
    handleNodeClick s nodeId ctrl shift wd =
      if nodeId = t.id then s
      else if wd then s
      else if ctrl then { s with selectedIds := toggleSet s.selectedIds nodeId }
      else if shift then { s with selectedIds := addSet s.selectedIds nodeId }
      else { s with selectedIds := toggleSet s.selectedIds nodeId } := by
  unfold handleNodeClick
  rw [htree]

theorem selectAll_selectedIds (s : EditorState) (t : SvgNode)
    (htree : s.svgTree = some t) :
    (selectAll s).selectedIds =
      if areAllSelected s then [] else mkSet (getAllSelectableIds t) := by
  unfold selectAll
  rw [htree]

theorem areAllSelected_eq (s : EditorState) (t : SvgNode)
    (htree : s.svgTree = some t) :
    areAllSelected s =
      if s.selectedIds.length = 0 then false
      else decide ((getAllSelectableIds t).length > 0) &&
        (getAllSelectableIds t).all (fun id => s.selectedIds.contains id) := by
  unfold areAllSelected
  rw [htree]

/-- Claim C7 (amended): (a) no click *adds* the root id — if the root id is
absent from the selection before any plain/Ctrl/Shift click, it is absent
afterwards (the import handler, however, deliberately sets the selection to
the root id, which is how the original claim fails); (b) `selectAll` never
produces a set containing the root id; (c) `selectAll` twice yields the
empty set provided not every selectable id was already selected (from the
fully-selected state the pair of calls yields the full set instead). -/
theorem claim_C7_amended (s : EditorState) (t : SvgNode) (htree : s.svgTree = some t) :
    (∀ nodeId ctrl shift wd, ¬ s.selectedIds.contains t.id = true →
      ¬ (handleNodeClick s nodeId ctrl shift wd).selectedIds.contains t.id = true) ∧
    (¬ (selectAll s).selectedIds.contains t.id = true) ∧
    (areAllSelected s = false → (selectAll (selectAll s)).selectedIds = []) := by
  have hrootsel : t.id ∉ mkSet (getAllSelectableIds t) := by
    rw [mem_mkSet]
    exact rootId_not_mem_selectableIdsAux t.id t
  refine ⟨?_, ?_, ?_⟩
  · intro nodeId ctrl shift wd hno
    rw [contains_iff_mem] at hno ⊢
    rw [handleNodeClick_eq s t htree nodeId ctrl shift wd]
    by_cases hid : nodeId = t.id
    · rw [if_pos hid]; exact hno
    · rw [if_neg hid]
      by_cases hwd : wd
      · rw [if_pos hwd]; exact hno
      · rw [if_neg hwd]
        have htoggle : t.id ∉ toggleSet s.selectedIds nodeId := by
          unfold toggleSet
          by_cases hc : s.selectedIds.contains nodeId
          · rw [if_pos hc]
            intro hmem
            exact hno (List.mem_of_mem_erase hmem)
          · rw [if_neg hc]
            intro hmem
            rcases List.mem_append.mp hmem with h | h
            · exact hno h
            · exact hid ((List.mem_singleton.mp h).symm)
        have hadd : t.id ∉ addSet s.selectedIds nodeId := by
          unfold addSet
          by_cases hc : s.selectedIds.contains nodeId
          · rw [if_pos hc]; exact hno
          · rw [if_neg hc]
            intro hmem
            rcases List.mem_append.mp hmem with h | h
            · exact hno h
            · exact hid ((List.mem_singleton.mp h).symm)
        by_cases hctrl : ctrl
        · rw [if_pos hctrl]; exact htoggle
        · rw [if_neg hctrl]
          by_cases hshift : shift
          · rw [if_pos hshift]; exact hadd
          · rw [if_neg hshift]; exact htoggle
  · rw [contains_iff_mem, selectAll_selectedIds s t htree]
    by_cases hall : areAllSelected s
    · rw [if_pos hall]; exact List.not_mem_nil _
    · rw [if_neg hall]; exact hrootsel
  · intro hfalse
    have h1 : (selectAll s).selectedIds = mkSet (getAllSelectableIds t) := by
      rw [selectAll_selectedIds s t htree, hfalse]
      simp
    have h2 : (selectAll s).svgTree = some t := by rw [selectAll_svgTree, htree]
    rw [selectAll_selectedIds (selectAll s) t h2]
    by_cases hempty : getAllSelectableIds t = []
    · rw [hempty]
      cases h : areAllSelected (selectAll s) <;> simp [mkSet]
    · have hne : mkSet (getAllSelectableIds t) ≠ [] := mkSet_ne_nil _ hempty
      have hall2 : areAllSelected (selectAll s) = true := by
        rw [areAllSelected_eq (selectAll s) t h2, h1]
        rw [if_neg (by simpa [List.length_eq_zero] using hne)]
        rw [Bool.and_eq_true]
        constructor
        · simp [List.length_pos, hempty]
        · rw [List.all_eq_true]
          intro x hx
          rw [contains_iff_mem]
          exact (mem_mkSet _ _).mpr hx
      rw [if_pos hall2]

/-- Witness for `claim_C7_amended` at the one-rect fixture, covering all
three conjuncts at concrete inputs. -/
theorem claim_C7_witness :
    ¬ (handleNodeClick (mkEditorState (some rootRect) [] [rootRect] 0)
        "r1" true false false).selectedIds.contains rootRect.id = true ∧
    ¬ (selectAll (mkEditorState (some rootRect) ["r1"] [rootRect] 0)).selectedIds.contains
        rootRect.id = true ∧
    (selectAll (selectAll (mkEditorState (some rootRect) [] [rootRect] 0))).selectedIds = [] := by
  refine ⟨?_, ?_, ?_⟩
  · exact (claim_C7_amended (mkEditorState (some rootRect) [] [rootRect] 0) rootRect rfl).1
      "r1" true false false (by decide)
  · exact (claim_C7_amended (mkEditorState (some rootRect) ["r1"] [rootRect] 0) rootRect rfl).2.1
  · exact (claim_C7_amended (mkEditorState (some rootRect) [] [rootRect] 0) rootRect rfl).2.2
      (by decide)

/-! ### Claim C5 -/

/-- Claim C5: after a single committed edit (`updateTreeWithHistory` with new
tree `t1` from a state whose cursor points at a snapshot of the live tree
`t0`), `undo` restores a live tree serializing identically to `t0`; `redo`
immediately after that `undo` restores a tree serializing identically to
`t1`; and committing any new edit while the cursor is not at the tail first
discards every history entry after the cursor (`history.slice(0, index+1)`),
after which `redo` is a no-op. -/
theorem claim_C5 (s : EditorState) (t0 t1 : SvgNode)
    (htree : s.svgTree = some t0)
    (hidx : 0 ≤ s.historyIndex)
    (hcur : s.history.get? s.historyIndex.toNat = some t0) :
    ((undo (updateTreeWithHistory s (some t1))).svgTree.map serializeNode
        = some (serializeNode t0)) ∧
    ((redo (undo (updateTreeWithHistory s (some t1)))).svgTree.map serializeNode
        = some (serializeNode t1)) ∧
    (∀ (s2 : EditorState) (t2 : SvgNode),
      s2.historyIndex < (s2.history.length : Int) - 1 →
      (updateTreeWithHistory s2 (some t2)).history
        = s2.history.take (s2.historyIndex + 1).toNat ++ [t2] ∧
      redo (updateTreeWithHistory s2 (some t2)) = updateTreeWithHistory s2 (some t2)) := by
  obtain ⟨hn, -⟩ := List.get?_eq_some.mp hcur
  set n := s.historyIndex.toNat with hndef
  have hidxn : s.historyIndex = (n : Int) := (Int.toNat_of_nonneg hidx).symm
  have htonat : (s.historyIndex + 1).toNat = n + 1 := by omega
  set s1 := updateTreeWithHistory s (some t1) with hs1def
  have hs1hist : s1.history = s.history.take (n + 1) ++ [t1] := by
    simp [hs1def, updateTreeWithHistory, saveToHistory, cloneNode_eq, htonat]
  have htakelen : (s.history.take (n + 1)).length = n + 1 := by
    rw [List.length_take]
    omega
  have hs1len : s1.history.length = n + 2 := by
    rw [hs1hist, List.length_append, htakelen]
    rfl
  have hs1idx : s1.historyIndex = (n : Int) + 1 := by
    have : s1.historyIndex = (s1.history.length : Int) - 1 := by
      simp [hs1def, updateTreeWithHistory, saveToHistory]
    rw [this, hs1len]
    omega
  -- the undo step
  have hu_cond : s1.historyIndex > 0 := by rw [hs1idx]; omega
  have hu_get : s1.history.get? (s1.historyIndex - 1).toNat = some t0 := by
    have h1 : (s1.historyIndex - 1).toNat = n := by rw [hs1idx]; omega
    rw [h1, hs1hist]
    rw [List.get?_eq_getElem?, List.getElem?_append_left (by omega),
      List.getElem?_take_of_lt (by omega), ← List.get?_eq_getElem?]
    exact hcur
  set su := undo s1 with hsudef
  have hsu : su = { s1 with historyIndex := s1.historyIndex - 1,
                            svgTree := some (cloneNode t0),
                            latestTree := some (cloneNode t0) } := by
    rw [hsudef]
    unfold undo
    rw [if_pos hu_cond]
    dsimp only
    rw [hu_get]
  have hsu_tree : su.svgTree = some t0 := by rw [hsu, cloneNode_eq]
  have hsu_idx : su.historyIndex = (n : Int) := by rw [hsu]; dsimp only; rw [hs1idx]; omega
  have hsu_hist : su.history = s1.history := by rw [hsu]
  refine ⟨?_, ?_, ?_⟩
  · rw [hsu_tree]
    rfl
  · -- the redo step
    have hr_cond : su.historyIndex < (su.history.length : Int) - 1 := by
      rw [hsu_idx, hsu_hist, hs1len]
      omega
    have hr_get : su.history.get? (su.historyIndex + 1).toNat = some t1 := by
      have h1 : (su.historyIndex + 1).toNat = n + 1 := by rw [hsu_idx]; omega
      rw [h1, hsu_hist, hs1hist]
      rw [List.get?_eq_getElem?, List.getElem?_append_right (by omega), htakelen]
      simp
    have : redo su = { su with historyIndex := su.historyIndex + 1,
                               svgTree := some (cloneNode t1),
                               latestTree := some (cloneNode t1) } := by
      unfold redo
      rw [if_pos hr_cond]
      dsimp only
      rw [hr_get]
    rw [this]
    dsimp only
    rw [cloneNode_eq]
    rfl
  · intro s2 t2 hnt
    have hist2 : (updateTreeWithHistory s2 (some t2)).history
        = s2.history.take (s2.historyIndex + 1).toNat ++ [t2] := by
      simp [updateTreeWithHistory, saveToHistory, cloneNode_eq]
    refine ⟨hist2, ?_⟩
    have hidx2 : (updateTreeWithHistory s2 (some t2)).historyIndex
        = ((updateTreeWithHistory s2 (some t2)).history.length : Int) - 1 := by
      simp [updateTreeWithHistory, saveToHistory]
    unfold redo
    rw [if_neg (by rw [hidx2]; omega)]

/-- Witness for `claim_C5` at a concrete editor state: history `[rootRect]`,
cursor 0, live tree `rootRect`, committing `twoRects` as the edit. -/
theorem claim_C5_witness :
    ((undo (updateTreeWithHistory (mkEditorState (some rootRect) ["r1"] [rootRect] 0)
        (some twoRects))).svgTree.map serializeNode = some (serializeNode rootRect)) ∧
    ((redo (undo (updateTreeWithHistory (mkEditorState (some rootRect) ["r1"] [rootRect] 0)
        (some twoRects)))).svgTree.map serializeNode = some (serializeNode twoRects)) ∧
    ((updateTreeWithHistory (mkEditorState (some rootRect) [] [rootRect, twoRects] 0)
        (some twoRects)).history
      = [rootRect, twoRects].take ((0 : Int) + 1).toNat ++ [twoRects]) ∧
    (redo (updateTreeWithHistory (mkEditorState (some rootRect) [] [rootRect, twoRects] 0)
        (some twoRects))
      = updateTreeWithHistory (mkEditorState (some rootRect) [] [rootRect, twoRects] 0)
        (some twoRects)) := by
  have h := claim_C5 (mkEditorState (some rootRect) ["r1"] [rootRect] 0) rootRect twoRects
    rfl (by decide) rfl
  have h2 := h.2.2 (mkEditorState (some rootRect) [] [rootRect, twoRects] 0) twoRects
    (by decide)
  exact ⟨h.1, h.2.1, h2.1, h2.2⟩

/-! ### Claim C6 -/

/-- Timing side condition of a burst: each event comes strictly after the
previous one and strictly less than 500 ms after it. -/
def burstOk (prev : Nat) : List (Nat × String × String) → Bool
  | [] => true
  | e :: es => decide (prev < e.1) && decide (e.1 < prev + 500) && burstOk e.1 es

/-- The timestamp of the last event of the burst (`prev` if none). -/
def lastTimeD (prev : Nat) : List (Nat × String × String) → Nat
  | [] => prev
  | e :: es => lastTimeD e.1 es

theorem burstOk_take (prev : Nat) (evs : List (Nat × String × String)) (i : Nat)
    (h : burstOk prev evs = true) : burstOk prev (evs.take i) = true := by
  induction evs generalizing prev i with
  | nil => simp [burstOk]
  | cons e rest ih =>
    cases i with
    | zero => simp [burstOk]
    | succ i =>
      rw [List.take_succ_cons]
      unfold burstOk at h ⊢
      rw [Bool.and_eq_true, Bool.and_eq_true] at h ⊢
      exact ⟨h.1, ih e.1 i h.2⟩

/-- Mid-burst invariant: from a state whose debounce timer is armed for
`tm + 500`, a chain of well-timed edits leaves history untouched, applies
every edit to the live tree immediately, and ends with the timer armed for
500 ms after the last edit. -/
theorem burst_inv (evs : List (Nat × String × String)) (s : EditorState)
    (t : SvgNode) (tm : Nat)
    (hne : ¬ s.selectedIds.length = 0)
    (htree : s.svgTree = some t) (hlatest : s.latestTree = some t)
    (hpend : s.pendingSaveDeadline = some (tm + 500))
    (hok : burstOk tm evs = true) :
    runColorBurst s evs =
      { s with svgTree := some (applyBurstTree s.selectedIds t evs),
               latestTree := some (applyBurstTree s.selectedIds t evs),
               pendingSaveDeadline := some (lastTimeD tm evs + 500) } := by
  induction evs generalizing s t tm with
  | nil =>
    cases s with
    | mk f1 f2 f3 f4 f5 f6 f7 =>
      dsimp only at htree hlatest hpend
      subst htree
      subst hlatest
      subst hpend
      rfl
  | cons e rest ih =>
    unfold burstOk at hok
    rw [Bool.and_eq_true, Bool.and_eq_true] at hok
    obtain ⟨⟨h1, h2⟩, h3⟩ := hok
    rw [decide_eq_true_eq] at h1 h2
    have hnofire : fireDueTimers s e.1 = s := by
      unfold fireDueTimers
      rw [hpend]
      exact if_neg (by omega)
    have hstep : stepColorEvent s e =
        { s with
          svgTree := some (updateMultipleNodes s.selectedIds
            (reconcileAttr e.2.1 e.2.2) t),
          latestTree := some (updateMultipleNodes s.selectedIds
            (reconcileAttr e.2.1 e.2.2) t),
          pendingSaveDeadline := some (e.1 + 500) } := by
      unfold stepColorEvent
      rw [hnofire]
      unfold updateAttributeWithoutHistory
      rw [if_neg hne, htree]
    have hrun : runColorBurst s (e :: rest) = runColorBurst (stepColorEvent s e) rest := by
      rfl
    rw [hrun, hstep]
    rw [ih { s with
          svgTree := some (updateMultipleNodes s.selectedIds
            (reconcileAttr e.2.1 e.2.2) t),
          latestTree := some (updateMultipleNodes s.selectedIds
            (reconcileAttr e.2.1 e.2.2) t),
          pendingSaveDeadline := some (e.1 + 500) }
        (updateMultipleNodes s.selectedIds (reconcileAttr e.2.1 e.2.2) t) e.1
        hne rfl rfl rfl h3]
    rfl

/-- Claim C6: a burst of `N ≥ 1` rapid color edits, each issued strictly less
than 500 ms after the previous one, appends exactly one new history entry —
the debounced snapshot fires once, 500 ms after the last edit, and contains
the latest tree — while every edit in the burst updates the live tree
immediately (so the live tree reflects the accumulated edits throughout and
the history is untouched until the timer fires). -/
theorem claim_C6 (s : EditorState) (t0 : SvgNode) (e : Nat × String × String)
    (rest : List (Nat × String × String))
    (hne : ¬ s.selectedIds.length = 0)
    (htree : s.svgTree = some t0)
    (hpend : s.pendingSaveDeadline = none)
    (htail : s.historyIndex = (s.history.length : Int) - 1)
    (hok : burstOk e.1 rest = true) :
    (quiesce (runColorBurst s (e :: rest))).history
      = s.history ++ [applyBurstTree s.selectedIds t0 (e :: rest)] ∧
    (runColorBurst s (e :: rest)).pendingSaveDeadline
      = some (lastTimeD e.1 rest + 500) ∧
    (quiesce (runColorBurst s (e :: rest))).svgTree
      = some (applyBurstTree s.selectedIds t0 (e :: rest)) ∧
    (∀ i, (runColorBurst s ((e :: rest).take i)).svgTree
            = some (applyBurstTree s.selectedIds t0 ((e :: rest).take i)) ∧
          (runColorBurst s ((e :: rest).take i)).history = s.history ∧
          (runColorBurst s ((e :: rest).take i)).historyIndex = s.historyIndex) := by
  have hnofire : fireDueTimers s e.1 = s := by
    unfold fireDueTimers
    rw [hpend]
  have hstep : stepColorEvent s e =
      { s with
        svgTree := some (updateMultipleNodes s.selectedIds
          (reconcileAttr e.2.1 e.2.2) t0),
        latestTree := some (updateMultipleNodes s.selectedIds
          (reconcileAttr e.2.1 e.2.2) t0),
        pendingSaveDeadline := some (e.1 + 500) } := by
    unfold stepColorEvent
    rw [hnofire]
    unfold updateAttributeWithoutHistory
    rw [if_neg hne, htree]
  have hburst : ∀ j, runColorBurst s (e :: rest.take j) =
      { s with
        svgTree := some (applyBurstTree s.selectedIds t0 (e :: rest.take j)),
        latestTree := some (applyBurstTree s.selectedIds t0 (e :: rest.take j)),
        pendingSaveDeadline := some (lastTimeD e.1 (rest.take j) + 500) } := by
    intro j
    have hrun : runColorBurst s (e :: rest.take j)
        = runColorBurst (stepColorEvent s e) (rest.take j) := rfl
    rw [hrun, hstep]
    rw [burst_inv (rest.take j)
      { s with
        svgTree := some (updateMultipleNodes s.selectedIds
          (reconcileAttr e.2.1 e.2.2) t0),
        latestTree := some (updateMultipleNodes s.selectedIds
          (reconcileAttr e.2.1 e.2.2) t0),
        pendingSaveDeadline := some (e.1 + 500) }
      (updateMultipleNodes s.selectedIds (reconcileAttr e.2.1 e.2.2) t0) e.1
      hne rfl rfl rfl (burstOk_take e.1 rest j hok)]
    rfl
  have hfull : runColorBurst s (e :: rest) =
      { s with
        svgTree := some (applyBurstTree s.selectedIds t0 (e :: rest)),
        latestTree := some (applyBurstTree s.selectedIds t0 (e :: rest)),
        pendingSaveDeadline := some (lastTimeD e.1 rest + 500) } := by
    have := hburst rest.length
    rwa [List.take_length] at this
  have htake : s.history.take (s.historyIndex + 1).toNat = s.history := by
    have : (s.historyIndex + 1).toNat = s.history.length := by omega
    rw [this, List.take_length]
  have hquiesce : quiesce (runColorBurst s (e :: rest)) =
      { s with
        svgTree := some (applyBurstTree s.selectedIds t0 (e :: rest)),
        latestTree := some (applyBurstTree s.selectedIds t0 (e :: rest)),
        pendingSaveDeadline := none,
        history := s.history ++ [applyBurstTree s.selectedIds t0 (e :: rest)],
        historyIndex := ((s.history ++ [applyBurstTree s.selectedIds t0 (e :: rest)]).length : Int) - 1 } := by
    rw [hfull]
    unfold quiesce fireDebounce saveToHistory
    dsimp only
    rw [cloneNode_eq, htake]
  refine ⟨?_, ?_, ?_, ?_⟩
  · rw [hquiesce]
  · rw [hfull]
  · rw [hquiesce]
  · intro i
    cases i with
    | zero =>
      refine ⟨?_, rfl, rfl⟩
      rw [show (e :: rest).take 0 = [] from rfl]
      exact htree
    | succ j =>
      rw [List.take_succ_cons, hburst j]
      exact ⟨rfl, rfl, rfl⟩

/-- Witness for `claim_C6`: two fill edits 300 ms apart on the one-rect
fixture; one snapshot is appended, armed for 500 ms after the second edit. -/
theorem claim_C6_witness :
    (quiesce (runColorBurst (mkEditorState (some rootRect) ["r1"] [rootRect] 0)
        [(1000, "fill", "#ff0000"), (1300, "fill", "#00ff00")])).history
      = [rootRect] ++ [applyBurstTree ["r1"] rootRect
          [(1000, "fill", "#ff0000"), (1300, "fill", "#00ff00")]] ∧
    (runColorBurst (mkEditorState (some rootRect) ["r1"] [rootRect] 0)
        [(1000, "fill", "#ff0000"), (1300, "fill", "#00ff00")]).pendingSaveDeadline
      = some (1800) ∧
    (runColorBurst (mkEditorState (some rootRect) ["r1"] [rootRect] 0)
        ([(1000, "fill", "#ff0000"), (1300, "fill", "#00ff00")].take 1)).history
      = [rootRect] := by
  have h := claim_C6 (mkEditorState (some rootRect) ["r1"] [rootRect] 0) rootRect
    (1000, "fill", "#ff0000") [(1300, "fill", "#00ff00")]
    (by decide) rfl rfl (by decide) (by decide)
  exact ⟨h.1, h.2.1, (h.2.2.2 1).2.1⟩

/-! ### Claim C10 -/

mutual

/-- Written from the claim's words, for the refinement comparison with
`serializeNode`: the output of an element node is exactly
`<tag k="v" ...>` (attribute values verbatim, only `data-id` excluded, no
XML escaping), followed by the node's text, the serialized children in
order, and `</tag>`; a text leaf is its text verbatim. -/
def serializeSpecNode : SvgNode → String
  | .mk _ tag attrs children text =>
    if tag = "#text" then text.getD ""
    else
      let rendered := (attrs.filter (fun p => p.1 ≠ "data-id")).map
        (fun p => p.1 ++ "=\"" ++ p.2 ++ "\"")
      (if rendered = [] then "<" ++ tag ++ ">"
       else "<" ++ tag ++ " " ++ jsJoin " " rendered ++ ">")
        ++ text.getD "" ++ jsJoin "" (serializeSpecList children)
        ++ "</" ++ tag ++ ">"

def serializeSpecList : List SvgNode → List String
  | [] => []
  | c :: cs => serializeSpecNode c :: serializeSpecList cs

end

theorem foldl_join_shift (sep : String) (ys : List String) (a b : String) :
    ys.foldl (fun acc y => acc ++ sep ++ y) (a ++ b)
      = a ++ ys.foldl (fun acc y => acc ++ sep ++ y) b := by
  induction ys generalizing b with
  | nil => rfl
  | cons y ys ih =>
    rw [List.foldl_cons, List.foldl_cons]
    have h : a ++ b ++ sep ++ y = a ++ (b ++ sep ++ y) := by
      simp [String.append_assoc]
    rw [h]
    exact ih (b ++ sep ++ y)

theorem jsJoin_empty_sep_cons (x : String) (xs : List String) :
    jsJoin "" (x :: xs) = x ++ jsJoin "" xs := by
  cases xs with
  | nil => simp [jsJoin]
  | cons y ys =>
    show (y :: ys).foldl (fun acc z => acc ++ "" ++ z) x = x ++ jsJoin "" (y :: ys)
    rw [List.foldl_cons]
    have hx : x ++ "" ++ y = x ++ y := by simp
    rw [hx]
    exact foldl_join_shift "" ys x y

theorem jsJoin_length_head_le (sep : String) (x : String) (xs : List String) :
    x.length ≤ (jsJoin sep (x :: xs)).length := by
  show x.length ≤ (xs.foldl (fun acc y => acc ++ sep ++ y) x).length
  induction xs generalizing x with
  | nil => exact Nat.le_refl _
  | cons y ys ih =>
    rw [List.foldl_cons]
    calc x.length ≤ (x ++ sep ++ y).length := by
          rw [String.length_append, String.length_append]
          omega
      _ ≤ _ := ih (x ++ sep ++ y)

mutual

theorem serializeNode_eq_spec (n : SvgNode) :
    serializeNode n = serializeSpecNode n := by
  cases n with
  | mk i tag attrs children text =>
    unfold serializeNode serializeSpecNode
    by_cases htag : tag = "#text"
    · rw [if_pos htag, if_pos htag]
    · rw [if_neg htag, if_neg htag]
      rw [serializeChildren_eq_spec children]
      cases hfil : (attrs.filter (fun p => p.1 ≠ "data-id")) with
      | nil =>
        simp [jsJoin]
      | cons q qs =>
        have hlen : 0 < (jsJoin " "
            ((q :: qs).map (fun p => p.1 ++ "=\"" ++ p.2 ++ "\""))).length := by
          have h1 : 0 < (q.1 ++ "=\"" ++ q.2 ++ "\"").length := by
            rw [String.length_append, String.length_append, String.length_append]
            have e2 : ("\"" : String).length = 1 := rfl
            omega
          calc 0 < (q.1 ++ "=\"" ++ q.2 ++ "\"").length := h1
            _ ≤ _ := by
              rw [List.map_cons]
              exact jsJoin_length_head_le " " _
                (qs.map (fun p => p.1 ++ "=\"" ++ p.2 ++ "\""))
        dsimp only
        rw [if_pos (by omega), if_neg (by simp)]

theorem serializeChildren_eq_spec (cs : List SvgNode) :
    serializeChildren cs = jsJoin "" (serializeSpecList cs) := by
  cases cs with
  | nil => rfl
  | cons c cs =>
    unfold serializeChildren serializeSpecList
    rw [jsJoin_empty_sep_cons, serializeNode_eq_spec c, serializeChildren_eq_spec cs]

end

/-- Claim C10: the serializer emits attribute values and text content
verbatim, with no XML escaping — `serializeNode` coincides with the
claim-level serializer `serializeSpecNode` on every tree, and on a node
whose attribute value contains a raw double quote and whose text child
contains markup characters, those characters appear unescaped in the
output. -/
theorem claim_C10 :
    (∀ n, serializeNode n = serializeSpecNode n) ∧
    serializeNode (.mk "x" "rect" [("data-id", "x"), ("a", "va\"l<ue")]
        [.mk "t1" "#text" [] [] (some "<b>&")] none)
      = "<rect a=\"va\"l<ue\"><b>&</rect>" :=
  ⟨serializeNode_eq_spec, by decide⟩

/-! ### Claim C8 — string machinery for the style reconciler.
Character-level facts about the JS `split`/`trim`/join pipeline, needed to
show that re-parsing a re-rendered style string finds no entry for the
removed key. -/

theorem splitOnChar_ne_nil (c : Char) (l : List Char) : splitOnChar c l ≠ [] := by
  cases l with
  | nil => simp [splitOnChar]
  | cons x xs =>
    unfold splitOnChar
    by_cases hx : x = c <;> simp [hx]

theorem splitOnChar_exists_cons (c : Char) (l : List Char) :
    ∃ p ps, splitOnChar c l = p :: ps := by
  cases h : splitOnChar c l with
  | nil => exact absurd h (splitOnChar_ne_nil c l)
  | cons p ps => exact ⟨p, ps, rfl⟩

theorem splitOnChar_cons_sep (c : Char) (l : List Char) :
    splitOnChar c (c :: l) = [] :: splitOnChar c l := by
  rw [show splitOnChar c (c :: l)
      = if c = c then [] :: splitOnChar c l
        else (c :: (splitOnChar c l).headD []) :: (splitOnChar c l).tail
    from rfl]
  simp

theorem splitOnChar_cons_ne (c x : Char) (l : List Char) (hx : ¬ x = c)
    (p : List Char) (ps : List (List Char)) (h : splitOnChar c l = p :: ps) :
    splitOnChar c (x :: l) = (x :: p) :: ps := by
  rw [show splitOnChar c (x :: l)
      = if x = c then [] :: splitOnChar c l
        else (x :: (splitOnChar c l).headD []) :: (splitOnChar c l).tail
    from rfl]
  rw [if_neg hx, h]
  rfl

theorem not_mem_of_mem_splitOnChar (c : Char) (l : List Char) :
    ∀ p ∈ splitOnChar c l, c ∉ p := by
  induction l with
  | nil =>
    intro p hp
    simp [splitOnChar] at hp
    simp [hp]
  | cons x xs ih =>
    intro p hp
    by_cases hx : x = c
    · subst hx
      rw [splitOnChar_cons_sep x xs] at hp
      rcases List.mem_cons.mp hp with rfl | hp2
      · exact List.not_mem_nil x
      · exact ih p hp2
    · obtain ⟨q, qs, h⟩ := splitOnChar_exists_cons c xs
      rw [splitOnChar_cons_ne c x xs hx q qs h] at hp
      rcases List.mem_cons.mp hp with rfl | hp2
      · intro hmem
        rcases List.mem_cons.mp hmem with rfl | hmem2
        · exact hx rfl
        · exact ih q (h ▸ List.mem_cons_self q qs) hmem2
      · exact ih p (h ▸ List.mem_cons_of_mem q hp2)

theorem mem_of_mem_splitOnChar (c : Char) (l : List Char) :
    ∀ p ∈ splitOnChar c l, ∀ x ∈ p, x ∈ l := by
  induction l with
  | nil =>
    intro p hp
    simp [splitOnChar] at hp
    simp [hp]
  | cons y xs ih =>
    intro p hp x hx
    by_cases hy : y = c
    · subst hy
      rw [splitOnChar_cons_sep y xs] at hp
      rcases List.mem_cons.mp hp with rfl | hp2
      · exact absurd hx (List.not_mem_nil x)
      · exact List.mem_cons_of_mem y (ih p hp2 x hx)
    · obtain ⟨q, qs, h⟩ := splitOnChar_exists_cons c xs
      rw [splitOnChar_cons_ne c y xs hy q qs h] at hp
      rcases List.mem_cons.mp hp with rfl | hp2
      · rcases List.mem_cons.mp hx with rfl | hx2
        · exact List.mem_cons_self x xs
        · exact List.mem_cons_of_mem y
            (ih q (h ▸ List.mem_cons_self q qs) x hx2)
      · exact List.mem_cons_of_mem y
          (ih p (h ▸ List.mem_cons_of_mem q hp2) x hx)

theorem splitOnChar_append (c : Char) (xs ys : List Char) (h : c ∉ xs) :
    splitOnChar c (xs ++ c :: ys) = xs :: splitOnChar c ys := by
  induction xs with
  | nil =>
    rw [List.nil_append]
    exact splitOnChar_cons_sep c ys
  | cons x xs ih =>
    have hx : ¬ x = c := fun hc => h (hc ▸ List.mem_cons_self x xs)
    have hxs : c ∉ xs := fun hc => h (List.mem_cons_of_mem x hc)
    rw [List.cons_append]
    exact splitOnChar_cons_ne c x (xs ++ c :: ys) hx xs (splitOnChar c ys) (ih hxs)

theorem splitOnChar_of_not_mem (c : Char) (l : List Char) (h : c ∉ l) :
    splitOnChar c l = [l] := by
  induction l with
  | nil => rfl
  | cons x xs ih =>
    have hx : ¬ x = c := fun hc => h (hc ▸ List.mem_cons_self x xs)
    have hxs : c ∉ xs := fun hc => h (List.mem_cons_of_mem x hc)
    exact splitOnChar_cons_ne c x xs hx xs [] (ih hxs)

theorem head_dropWhile_not (p : Char → Bool) (l : List Char) :
    ∀ h ∈ (l.dropWhile p).head?, p h = false := by
  induction l with
  | nil => simp
  | cons x xs ih =>
    intro h hh
    rw [List.dropWhile_cons] at hh
    by_cases hx : p x = true
    · rw [if_pos hx] at hh
      exact ih h hh
    · rw [if_neg hx] at hh
      simp at hh
      rw [← hh]
      simpa using hx

theorem dropWhile_eq_self_of_head (p : Char → Bool) (l : List Char)
    (h : ∀ x ∈ l.head?, p x = false) : l.dropWhile p = l := by
  cases l with
  | nil => rfl
  | cons x xs =>
    have hx := h x (by simp)
    rw [List.dropWhile_cons, if_neg (by simp [hx])]

theorem mem_of_mem_dropWhile (p : Char → Bool) (l : List Char) :
    ∀ x ∈ l.dropWhile p, x ∈ l :=
  fun x hx => (List.dropWhile_suffix p).subset hx

theorem mem_of_mem_trimChars (l : List Char) :
    ∀ x ∈ trimChars l, x ∈ l := by
  intro x hx
  unfold trimChars at hx
  rw [List.mem_reverse] at hx
  have h1 := mem_of_mem_dropWhile isJsSpace (l.dropWhile isJsSpace).reverse x hx
  rw [List.mem_reverse] at h1
  exact mem_of_mem_dropWhile isJsSpace l x h1

theorem trimChars_cons_space (x : Char) (l : List Char) (hx : isJsSpace x = true) :
    trimChars (x :: l) = trimChars l := by
  unfold trimChars
  rw [List.dropWhile_cons, if_pos (by simp [hx])]

theorem trimChars_eq_self (l : List Char)
    (hhead : ∀ h ∈ l.head?, isJsSpace h = false)
    (hlast : ∀ h ∈ l.getLast?, isJsSpace h = false) : trimChars l = l := by
  unfold trimChars
  rw [dropWhile_eq_self_of_head isJsSpace l hhead]
  rw [dropWhile_eq_self_of_head isJsSpace l.reverse
    (by rw [List.head?_reverse]; exact hlast)]
  exact List.reverse_reverse l

theorem trimChars_getLast_not_space (l : List Char) :
    ∀ h ∈ (trimChars l).getLast?, isJsSpace h = false := by
  intro h hh
  unfold trimChars at hh
  rw [List.getLast?_reverse] at hh
  exact head_dropWhile_not isJsSpace (l.dropWhile isJsSpace).reverse h hh

theorem trimChars_head_not_space (l : List Char) :
    ∀ h ∈ (trimChars l).head?, isJsSpace h = false := by
  intro h hh
  unfold trimChars at hh
  rw [List.head?_reverse] at hh
  obtain ⟨r, hr⟩ :=
    List.dropWhile_suffix (l := (l.dropWhile isJsSpace).reverse) isJsSpace
  cases hu : (l.dropWhile isJsSpace).reverse.dropWhile isJsSpace with
  | nil => rw [hu] at hh; simp at hh
  | cons u us =>
    rw [hu] at hh hr
    have h1 : (u :: us).getLast? = (l.dropWhile isJsSpace).head? := by
      calc (u :: us).getLast? = (r ++ u :: us).getLast? :=
            (List.getLast?_append_of_ne_nil r (by simp)).symm
        _ = (l.dropWhile isJsSpace).reverse.getLast? := by rw [hr]
        _ = (l.dropWhile isJsSpace).head? := List.getLast?_reverse _
    rw [h1] at hh
    exact head_dropWhile_not isJsSpace l h hh

/-- Well-formedness of a style-entry component: produced by the trim/split
pipeline, it contains no separator characters and no whitespace at either
end. -/
def wfComp (x : String) : Prop :=
  (';' ∉ x.toList) ∧ (':' ∉ x.toList) ∧
  (∀ h ∈ x.toList.head?, isJsSpace h = false) ∧
  (∀ h ∈ x.toList.getLast?, isJsSpace h = false)

theorem wfComp_undefined : wfComp "undefined" := by
  refine ⟨by decide, by decide, ?_, ?_⟩ <;> intro h hh <;>
    simp_all [String.toList] <;> subst hh <;> rfl

theorem toList_append (a b : String) : (a ++ b).toList = a.toList ++ b.toList := rfl

theorem mk_toList (s : String) : String.mk s.toList = s := rfl

theorem toList_mk (l : List Char) : (String.mk l).toList = l := rfl

theorem head_append_of_ne_nil (l r : List Char) (h : l ≠ []) :
    (l ++ r).head? = l.head? := by
  cases l with
  | nil => exact absurd rfl h
  | cons x xs => rfl

theorem jsTrim_toList (s : String) : (jsTrim s).toList = trimChars s.toList := rfl

/-- Every entry `styleEntries` produces is nonempty and made of well-formed
components. -/
theorem styleEntries_wf (s : String) :
    ∀ e ∈ styleEntries s, e ≠ [] ∧ ∀ x ∈ e, wfComp x := by
  intro e he
  unfold styleEntries at he
  obtain ⟨p, hp, rfl⟩ := List.mem_map.mp he
  obtain ⟨hp0, -⟩ := List.mem_filter.mp hp
  obtain ⟨p1, hp1, rfl⟩ := List.mem_map.mp hp0
  obtain ⟨r, hr, rfl⟩ := List.mem_map.mp hp1
  have hnosemi_r : ';' ∉ r := not_mem_of_mem_splitOnChar ';' _ r hr
  have hnosemi_p : ';' ∉ (jsTrim (String.mk r)).toList := by
    rw [jsTrim_toList, toList_mk]
    intro hmem
    exact hnosemi_r (mem_of_mem_trimChars r ';' hmem)
  constructor
  · intro hnil
    have := splitOnChar_ne_nil ':' (jsTrim (String.mk r)).toList
    unfold jsSplit at hnil
    rw [List.map_eq_nil] at hnil
    rw [List.map_eq_nil] at hnil
    exact this hnil
  · intro x hx
    obtain ⟨cpt, hcpt, rfl⟩ := List.mem_map.mp hx
    obtain ⟨q, hq, rfl⟩ := List.mem_map.mp hcpt
    have hq_nocolon : ':' ∉ q := not_mem_of_mem_splitOnChar ':' _ q hq
    have hq_sub : ∀ y ∈ q, y ∈ (jsTrim (String.mk r)).toList := by
      intro y hy
      have := mem_of_mem_splitOnChar ':' _ q hq y
      rw [toList_mk] at this ⊢
      exact this hy
    refine ⟨?_, ?_, ?_, ?_⟩
    · rw [jsTrim_toList, toList_mk]
      intro hmem
      exact hnosemi_p (hq_sub ';' (mem_of_mem_trimChars q ';' hmem))
    · rw [jsTrim_toList, toList_mk]
      intro hmem
      exact hq_nocolon (mem_of_mem_trimChars q ':' hmem)
    · rw [jsTrim_toList, toList_mk]
      exact trimChars_head_not_space q
    · rw [jsTrim_toList, toList_mk]
      exact trimChars_getLast_not_space q

theorem jsJoin_cons_cons (sep x y : String) (ys : List String) :
    jsJoin sep (x :: y :: ys) = x ++ sep ++ jsJoin sep (y :: ys) := by
  show (y :: ys).foldl (fun acc z => acc ++ sep ++ z) x = _
  rw [List.foldl_cons]
  exact foldl_join_shift sep ys (x ++ sep) y

theorem trimChars_piece (k v : List Char) (hk : k ≠ [])
    (hkh : ∀ h ∈ k.head?, isJsSpace h = false)
    (hvl : ∀ h ∈ v.getLast?, isJsSpace h = false) :
    trimChars (k ++ ':' :: ' ' :: v)
      = if v = [] then k ++ [':'] else k ++ ':' :: ' ' :: v := by
  have hdrop : (k ++ ':' :: ' ' :: v).dropWhile isJsSpace = k ++ ':' :: ' ' :: v := by
    apply dropWhile_eq_self_of_head
    rw [head_append_of_ne_nil k _ hk]
    exact hkh
  unfold trimChars
  rw [hdrop]
  by_cases hv : v = []
  · subst hv
    rw [if_pos rfl]
    have hrev : (k ++ [':', ' ']).reverse = ' ' :: ':' :: k.reverse := by
      simp
    rw [show (k ++ ':' :: ' ' :: ([] : List Char)) = k ++ [':', ' '] from rfl, hrev]
    rw [List.dropWhile_cons, if_pos (by decide)]
    rw [List.dropWhile_cons, if_neg (by decide)]
    simp
  · rw [if_neg hv]
    have hrevne : v.reverse ≠ [] := by simpa using hv
    have hrev : (k ++ ':' :: ' ' :: v).reverse
        = v.reverse ++ (' ' :: ':' :: k.reverse) := by
      simp
    rw [hrev]
    rw [dropWhile_eq_self_of_head isJsSpace _ (by
      rw [head_append_of_ne_nil _ _ hrevne, List.head?_reverse]
      exact hvl)]
    rw [← hrev, List.reverse_reverse]

theorem toList_piece (k v : String) :
    (k ++ ": " ++ v).toList = k.toList ++ ':' :: ' ' :: v.toList := by
  rw [toList_append, toList_append]
  rw [show (": " : String).toList = [':', ' '] from rfl]
  simp

theorem toList_eq_nil_iff (s : String) : s.toList = [] ↔ s = "" := by
  constructor
  · intro h
    have := congrArg String.mk h
    rw [mk_toList] at this
    exact this
  · intro h
    rw [h]
    rfl

theorem jsTrim_piece (k v : String) (hk : ¬ k = "")
    (hkh : ∀ h ∈ k.toList.head?, isJsSpace h = false)
    (hvl : ∀ h ∈ v.toList.getLast?, isJsSpace h = false) :
    jsTrim (k ++ ": " ++ v) = if v = "" then k ++ ":" else k ++ ": " ++ v := by
  have hknil : k.toList ≠ [] := by
    intro h
    exact hk ((toList_eq_nil_iff k).mp h)
  unfold jsTrim
  rw [toList_piece, trimChars_piece k.toList v.toList hknil hkh hvl]
  by_cases hv : v = ""
  · rw [if_pos ((toList_eq_nil_iff v).mpr hv), if_pos hv]
    have : (k ++ ":").toList = k.toList ++ [':'] := by
      rw [toList_append]
      rfl
    rw [← this, mk_toList]
  · rw [if_neg (fun h => hv ((toList_eq_nil_iff v).mp h)), if_neg hv]
    rw [← toList_piece, mk_toList]

theorem jsTrim_eq_self (s : String)
    (hh : ∀ h ∈ s.toList.head?, isJsSpace h = false)
    (hl : ∀ h ∈ s.toList.getLast?, isJsSpace h = false) :
    jsTrim s = s := by
  unfold jsTrim
  rw [trimChars_eq_self s.toList hh hl, mk_toList]

/-- The tail of the `styleEntries` pipeline, applied to already-split
semicolon pieces; `styleEntries s` is definitionally this applied to
`splitOnChar ';' s.toList`. -/
def entriesOfPieces (ps : List (List Char)) : List (List String) :=
  (((ps.map String.mk).map jsTrim).filter (fun p => p ≠ "")).map
    (fun p => (jsSplit ':' p).map jsTrim)

theorem styleEntries_eq_pieces (s : String) :
    styleEntries s = entriesOfPieces (splitOnChar ';' s.toList) := rfl

theorem entriesOfPieces_cons (x : List Char) (xs : List (List Char)) :
    entriesOfPieces (x :: xs) = entriesOfPieces [x] ++ entriesOfPieces xs := by
  unfold entriesOfPieces
  rw [List.map_cons, List.map_cons, List.filter_cons]
  by_cases h : jsTrim (String.mk x) = ""
  · simp [List.filter_cons, h]
  · simp [List.filter_cons, h]

theorem entriesOfPieces_space (p : List Char) :
    entriesOfPieces ((' ' :: p) :: []) = entriesOfPieces (p :: []) := by
  unfold entriesOfPieces
  have htrim : jsTrim (String.mk (' ' :: p)) = jsTrim (String.mk p) := by
    unfold jsTrim
    rw [toList_mk, toList_mk, trimChars_cons_space ' ' p (by decide)]
  rw [List.map_cons, List.map_cons, List.map_cons, List.map_cons, htrim]

/-- Parsing distributes over the `"; "`-join of a semicolon-free piece and
an arbitrary remainder: the leading space the join introduces is absorbed by
the trim step. -/
theorem styleEntries_sep_append (A B : String) (hA : ';' ∉ A.toList) :
    styleEntries (A ++ "; " ++ B) = styleEntries A ++ styleEntries B := by
  obtain ⟨p, ps, hsplit⟩ := splitOnChar_exists_cons ';' B.toList
  have htl : (A ++ "; " ++ B).toList = A.toList ++ ';' :: (' ' :: B.toList) := by
    rw [toList_append, toList_append]
    rw [show ("; " : String).toList = [';', ' '] from rfl]
    simp
  have hsplitw : splitOnChar ';' (A ++ "; " ++ B).toList
      = A.toList :: (' ' :: p) :: ps := by
    rw [htl, splitOnChar_append ';' A.toList _ hA]
    rw [splitOnChar_cons_ne ';' ' ' B.toList (by decide) p ps hsplit]
  rw [styleEntries_eq_pieces, styleEntries_eq_pieces A, styleEntries_eq_pieces B]
  rw [hsplitw, hsplit]
  rw [entriesOfPieces_cons A.toList, entriesOfPieces_cons (' ' :: p),
    entriesOfPieces_space, ← entriesOfPieces_cons p ps]
  rw [splitOnChar_of_not_mem ';' A.toList hA]

/-- A single well-formed `k ++ ": " ++ v` piece re-parses to one entry whose
head is exactly `k`. -/
theorem styleEntries_piece_heads (k v : String) (hk : ¬ k = "")
    (hwk : wfComp k) (hwv : wfComp v) :
    (styleEntries (k ++ ": " ++ v)).map (fun e => e.headD "") = [k] := by
  obtain ⟨hks, hkc, hkh, hkl⟩ := hwk
  obtain ⟨hvs, hvc, hvh, hvl⟩ := hwv
  have hnos : ';' ∉ (k ++ ": " ++ v).toList := by
    rw [toList_piece]
    intro hmem
    rcases List.mem_append.mp hmem with h | h
    · exact hks h
    · rcases List.mem_cons.mp h with h' | h'
      · exact absurd h' (by decide)
      · rcases List.mem_cons.mp h' with h'' | h''
        · exact absurd h'' (by decide)
        · exact hvs h''
  have htrim := jsTrim_piece k v hk hkh hvl
  have hktrim : jsTrim k = k := jsTrim_eq_self k hkh hkl
  rw [styleEntries_eq_pieces, splitOnChar_of_not_mem ';' _ hnos]
  unfold entriesOfPieces
  rw [List.map_cons, List.map_nil, List.map_cons, List.map_nil, mk_toList]
  rw [htrim]
  by_cases hv : v = ""
  · rw [if_pos hv]
    have hlen : ¬ (k ++ ":") = "" := by
      intro h
      have := congrArg String.toList h
      rw [toList_append] at this
      simp [show (":" : String).toList = [':'] from rfl] at this
    rw [List.filter_cons, if_pos (by simpa using hlen), List.filter_nil]
    have hsp : splitOnChar ':' (k ++ ":").toList = [k.toList, []] := by
      rw [show (k ++ ":").toList = k.toList ++ ':' :: [] from by
        rw [toList_append]; rfl]
      rw [splitOnChar_append ':' k.toList [] hkc]
      rfl
    rw [List.map_cons, List.map_nil]
    unfold jsSplit
    rw [hsp]
    simp [mk_toList, hktrim]
  · rw [if_neg hv]
    have hlen : ¬ (k ++ ": " ++ v) = "" := by
      intro h
      have := congrArg String.toList h
      rw [toList_piece] at this
      cases hkl2 : k.toList with
      | nil => exact hk ((toList_eq_nil_iff k).mp hkl2)
      | cons a as => rw [hkl2] at this; simp at this
    rw [List.filter_cons, if_pos (by simpa using hlen), List.filter_nil]
    have hsp : splitOnChar ':' (k ++ ": " ++ v).toList
        = k.toList :: splitOnChar ':' (' ' :: v.toList) := by
      rw [toList_piece]
      exact splitOnChar_append ':' k.toList _ hkc
    rw [List.map_cons, List.map_nil]
    unfold jsSplit
    rw [hsp]
    simp [mk_toList, hktrim]

/-- The rendering function `applyStyleValue` maps over kept entries. -/
def renderEntry (e : List String) : String :=
  (e.headD "undefined") ++ ": " ++ ((e.get? 1).getD "undefined")

/-- Re-parsing the rendered join of well-formed entries yields entries with
exactly the original heads (the values may be re-tokenised, the keys are
untouched). -/
theorem styleEntries_render_heads (E : List (List String))
    (hwf : ∀ e ∈ E, ¬ (e.headD "undefined") = "" ∧
      wfComp (e.headD "undefined") ∧ wfComp ((e.get? 1).getD "undefined"))
    (hne : E ≠ []) :
    (styleEntries (jsJoin "; " (E.map renderEntry))).map (fun e => e.headD "")
      = E.map (fun e => e.headD "undefined") := by
  induction E with
  | nil => exact absurd rfl hne
  | cons e E ih =>
    obtain ⟨hk, hwk, hwv⟩ := hwf e (List.mem_cons_self e E)
    cases E with
    | nil =>
      rw [List.map_cons, List.map_nil]
      rw [show jsJoin "; " [renderEntry e] = renderEntry e from rfl]
      unfold renderEntry
      rw [styleEntries_piece_heads _ _ hk hwk hwv]
      rfl
    | cons e2 E2 =>
      rw [List.map_cons, List.map_cons, jsJoin_cons_cons]
      have hsemi : ';' ∉ (renderEntry e).toList := by
        unfold renderEntry
        rw [toList_piece]
        intro hmem
        rcases List.mem_append.mp hmem with h | h
        · exact hwk.1 h
        · rcases List.mem_cons.mp h with h' | h'
          · exact absurd h' (by decide)
          · rcases List.mem_cons.mp h' with h'' | h''
            · exact absurd h'' (by decide)
            · exact hwv.1 h''
      rw [styleEntries_sep_append _ _ hsemi]
      rw [List.map_append]
      have hhead : (styleEntries (renderEntry e)).map (fun x => x.headD "")
          = [e.headD "undefined"] := by
        unfold renderEntry
        exact styleEntries_piece_heads _ _ hk hwk hwv
      rw [hhead]
      rw [← List.map_cons renderEntry e2 E2]
      rw [ih (fun x hx => hwf x (List.mem_cons_of_mem e hx)) (by simp)]
      rfl

theorem headD_eq_of_ne_nil (e : List String) (h : e ≠ []) (d1 d2 : String) :
    e.headD d1 = e.headD d2 := by
  cases e with
  | nil => exact absurd rfl h
  | cons x xs => rfl

/-- Core reconciler fact: after removing `key` from a style string, the
re-rendered style string (when nonempty, i.e. when the `style` attribute is
kept at all) contains no entry for `key`. -/
theorem getStyleValue_applyStyleValue_none (style : Option String) (key : String)
    (hres : ¬ applyStyleValue style key none = "") :
    getStyleValue (some (applyStyleValue style key none)) key = none := by
  cases style with
  | none => exact absurd rfl hres
  | some s =>
    have happ : applyStyleValue (some s) key none
        = if ((styleEntries s).filter
            (fun e => e.headD "" ≠ key ∧ (e.headD "").length > 0)).length = 0
          then ""
          else jsJoin "; "
            (((styleEntries s).filter
              (fun e => e.headD "" ≠ key ∧ (e.headD "").length > 0)).map
              (fun e => (e.headD "undefined") ++ ": " ++ ((e.get? 1).getD "undefined"))) := rfl
    set kept := (styleEntries s).filter
      (fun e => e.headD "" ≠ key ∧ (e.headD "").length > 0) with hkept
    cases hk : kept with
    | nil =>
      rw [happ, hk] at hres
      simp at hres
    | cons k0 ks =>
      have hklen : ¬ kept.length = 0 := by rw [hk]; simp
      have happ2 : applyStyleValue (some s) key none
          = jsJoin "; " (kept.map
            (fun e => (e.headD "undefined") ++ ": " ++ ((e.get? 1).getD "undefined"))) := by
        rw [happ, if_neg hklen]
      have hwf : ∀ e ∈ kept, ¬ (e.headD "undefined") = "" ∧
          wfComp (e.headD "undefined") ∧ wfComp ((e.get? 1).getD "undefined") := by
        intro e he
        have hemem : e ∈ styleEntries s := (List.mem_filter.mp (hkept ▸ he)).1
        obtain ⟨hene, hcomps⟩ := styleEntries_wf s e hemem
        have hfilt := (List.mem_filter.mp (hkept ▸ he)).2
        rw [decide_eq_true_eq] at hfilt
        refine ⟨?_, ?_, ?_⟩
        · rw [headD_eq_of_ne_nil e hene "undefined" ""]
          intro h0
          rw [h0] at hfilt
          simp at hfilt
        · rcases e with _ | ⟨x, xs⟩
          · exact absurd rfl hene
          · exact hcomps x (List.mem_cons_self x xs)
        · cases hget : e.get? 1 with
          | some c =>
            rw [Option.getD_some]
            exact hcomps c (List.get?_mem hget)
          | none =>
            rw [Option.getD_none]
            exact wfComp_undefined
      have hne : kept ≠ [] := by rw [hk]; simp
      have hheads := styleEntries_render_heads kept hwf hne
      rw [happ2]
      have hfindnone : (styleEntries (jsJoin "; " (kept.map renderEntry))).find?
          (fun e => e.headD "" = key) = none := by
        rw [List.find?_eq_none]
        intro x hx
        have hxhead : x.headD "" ∈ (styleEntries (jsJoin "; "
            (kept.map renderEntry))).map (fun e => e.headD "") :=
          List.mem_map_of_mem _ hx
        rw [hheads] at hxhead
        obtain ⟨e0, he0, heq⟩ := List.mem_map.mp hxhead
        have hfilt := (List.mem_filter.mp (hkept ▸ he0)).2
        rw [decide_eq_true_eq] at hfilt
        have hene := (styleEntries_wf s e0 ((List.mem_filter.mp (hkept ▸ he0)).1)).1
        rw [headD_eq_of_ne_nil e0 hene "undefined" ""] at heq
        simp only [decide_eq_true_eq]
        rw [← heq]
        exact hfilt.1
      rw [show (kept.map (fun e => (e.headD "undefined") ++ ": "
          ++ ((e.get? 1).getD "undefined"))) = kept.map renderEntry from rfl]
      unfold getStyleValue
      dsimp only
      rw [hfindnone]

theorem lookupAttr_cons (k v key : String) (rest : List (String × String)) :
    lookupAttr ((k, v) :: rest) key
      = if k = key then some v else lookupAttr rest key := rfl

theorem lookup_setAttr_self (a : List (String × String)) (key value : String) :
    lookupAttr (setAttr a key value) key = some value := by
  induction a with
  | nil => simp [setAttr, lookupAttr]
  | cons p rest ih =>
    obtain ⟨k, v⟩ := p
    unfold setAttr
    by_cases h : k = key
    · rw [if_pos h, lookupAttr_cons, if_pos h]
    · rw [if_neg h, lookupAttr_cons, if_neg h]
      exact ih

theorem lookup_removeAttr_self (a : List (String × String)) (key : String) :
    lookupAttr (removeAttr a key) key = none := by
  induction a with
  | nil => rfl
  | cons p rest ih =>
    obtain ⟨k, v⟩ := p
    unfold removeAttr at ih ⊢
    rw [List.filter_cons]
    by_cases h : k = key
    · rw [if_neg (by simp [h])]
      exact ih
    · rw [if_pos (by simpa using h), lookupAttr_cons, if_neg h]
      exact ih

theorem lookup_removeAttr_ne (a : List (String × String)) (key other : String)
    (h : ¬ other = key) :
    lookupAttr (removeAttr a key) other = lookupAttr a other := by
  induction a with
  | nil => rfl
  | cons p rest ih =>
    obtain ⟨k, v⟩ := p
    unfold removeAttr at ih ⊢
    rw [List.filter_cons]
    by_cases hp : k = key
    · rw [if_neg (by simp [hp])]
      rw [lookupAttr_cons, if_neg (fun hpo => h (by rw [← hpo]; exact hp))]
      exact ih
    · rw [if_pos (by simpa using hp), lookupAttr_cons, lookupAttr_cons]
      by_cases hpo : k = other
      · rw [if_pos hpo, if_pos hpo]
      · rw [if_neg hpo, if_neg hpo]
        exact ih

theorem lookup_setAttr_ne (a : List (String × String)) (key other value : String)
    (h : ¬ other = key) :
    lookupAttr (setAttr a key value) other = lookupAttr a other := by
  induction a with
  | nil =>
    unfold setAttr
    rw [lookupAttr_cons, if_neg (fun hh => h hh.symm)]
  | cons p rest ih =>
    obtain ⟨k, v⟩ := p
    unfold setAttr
    by_cases hp : k = key
    · rw [if_pos hp, lookupAttr_cons, lookupAttr_cons]
      by_cases hpo : k = other
      · exact absurd (hpo.symm.trans hp) h
      · rw [if_neg hpo, if_neg hpo]
    · rw [if_neg hp, lookupAttr_cons, lookupAttr_cons]
      by_cases hpo : k = other
      · rw [if_pos hpo, if_pos hpo]
      · rw [if_neg hpo, if_neg hpo]
        exact ih

mutual

/-- Every node of a tree, in preorder (a quantification device for stating
per-node consequences of batch mutations; not itself part of the source). -/
def allNodesOf : SvgNode → List SvgNode
  | .mk i t a cs txt => .mk i t a cs txt :: allNodesList cs

def allNodesList : List SvgNode → List SvgNode
  | [] => []
  | c :: cs => allNodesOf c ++ allNodesList cs

end

theorem reconcileAttr_id (key value : String) (n : SvgNode) :
    (reconcileAttr key value n).id = n.id := by
  unfold reconcileAttr
  dsimp only
  split <;> (try split) <;> (try split) <;> (try split) <;> rfl

theorem reconcile_fill_set (n : SvgNode) (v : String) (hv : ¬ v = "") :
    lookupAttr (reconcileAttr "fill" v n).attrs "fill" = some v := by
  unfold reconcileAttr
  dsimp only
  rw [if_pos hv]
  dsimp only [SvgNode.attrs]
  exact lookup_setAttr_self _ _ _

theorem reconcile_fill_clear (n : SvgNode) :
    lookupAttr (reconcileAttr "fill" "" n).attrs "fill" = none ∧
    getStyleValue (lookupAttr (reconcileAttr "fill" "" n).attrs "style") "fill"
      = none := by
  unfold reconcileAttr
  dsimp only
  rw [if_pos (Or.inl rfl), if_neg (by simp)]
  rw [if_pos rfl]
  set sv := applyStyleValue (lookupAttr n.attrs "style") "fill" none with hsv
  by_cases h : sv = ""
  · rw [if_neg (by simpa using h)]
    dsimp only [SvgNode.attrs]
    refine ⟨lookup_removeAttr_self _ _, ?_⟩
    rw [lookup_removeAttr_ne _ _ _ (by decide), lookup_removeAttr_self]
    rfl
  · rw [if_pos (by simpa using h)]
    dsimp only [SvgNode.attrs]
    refine ⟨lookup_removeAttr_self _ _, ?_⟩
    rw [lookup_removeAttr_ne _ _ _ (by decide), lookup_setAttr_self]
    exact getStyleValue_applyStyleValue_none _ _ h

mutual

theorem updateMultiple_corr (ids : List String) (f : SvgNode → SvgNode)
    (hf : ∀ m, (f m).id = m.id) (n : SvgNode) :
    ∀ m' ∈ allNodesOf (updateMultipleNodes ids f n),
      ∃ m, m ∈ allNodesOf n ∧ m'.id = m.id ∧
        m'.attrs = (if ids.contains m.id then (f m).attrs else m.attrs) := by
  cases n with
  | mk i t a cs txt =>
    intro m' hm'
    by_cases hc : ids.contains i
    · have hstep : updateMultipleNodes ids f (.mk i t a cs txt)
          = .mk (f (.mk i t a cs txt)).id (f (.mk i t a cs txt)).tag
              (f (.mk i t a cs txt)).attrs (updateMultipleNodesList ids f cs)
              (f (.mk i t a cs txt)).text := by
        unfold updateMultipleNodes
        rw [cloneNode_eq, if_pos hc]
      rw [hstep] at hm'
      rw [show allNodesOf (SvgNode.mk (f (.mk i t a cs txt)).id
            (f (.mk i t a cs txt)).tag (f (.mk i t a cs txt)).attrs
            (updateMultipleNodesList ids f cs) (f (.mk i t a cs txt)).text)
          = SvgNode.mk (f (.mk i t a cs txt)).id (f (.mk i t a cs txt)).tag
              (f (.mk i t a cs txt)).attrs (updateMultipleNodesList ids f cs)
              (f (.mk i t a cs txt)).text
            :: allNodesList (updateMultipleNodesList ids f cs) from rfl] at hm'
      rcases List.mem_cons.mp hm' with rfl | hm2
      · refine ⟨.mk i t a cs txt, ?_, ?_, ?_⟩
        · rw [show allNodesOf (.mk i t a cs txt)
              = .mk i t a cs txt :: allNodesList cs from rfl]
          exact List.mem_cons_self _ _
        · dsimp only [SvgNode.id]
          exact hf (.mk i t a cs txt)
        · dsimp only [SvgNode.attrs]
          rw [if_pos (by dsimp only [SvgNode.id]; exact hc)]
      · obtain ⟨m, hmem, hid, hattrs⟩ := updateMultipleList_corr ids f hf cs m' hm2
        refine ⟨m, ?_, hid, hattrs⟩
        rw [show allNodesOf (.mk i t a cs txt)
            = .mk i t a cs txt :: allNodesList cs from rfl]
        exact List.mem_cons_of_mem _ hmem
    · have hstep : updateMultipleNodes ids f (.mk i t a cs txt)
          = .mk i t a (updateMultipleNodesList ids f cs) txt := by
        unfold updateMultipleNodes
        rw [cloneNode_eq, if_neg hc]
        rfl
      rw [hstep] at hm'
      rw [show allNodesOf (SvgNode.mk i t a (updateMultipleNodesList ids f cs) txt)
          = SvgNode.mk i t a (updateMultipleNodesList ids f cs) txt
            :: allNodesList (updateMultipleNodesList ids f cs) from rfl] at hm'
      rcases List.mem_cons.mp hm' with rfl | hm2
      · refine ⟨.mk i t a cs txt, ?_, rfl, ?_⟩
        · rw [show allNodesOf (.mk i t a cs txt)
              = .mk i t a cs txt :: allNodesList cs from rfl]
          exact List.mem_cons_self _ _
        · dsimp only [SvgNode.attrs, SvgNode.id]
          rw [if_neg hc]
      · obtain ⟨m, hmem, hid, hattrs⟩ := updateMultipleList_corr ids f hf cs m' hm2
        refine ⟨m, ?_, hid, hattrs⟩
        rw [show allNodesOf (.mk i t a cs txt)
            = .mk i t a cs txt :: allNodesList cs from rfl]
        exact List.mem_cons_of_mem _ hmem

theorem updateMultipleList_corr (ids : List String) (f : SvgNode → SvgNode)
    (hf : ∀ m, (f m).id = m.id) (cs : List SvgNode) :
    ∀ m' ∈ allNodesList (updateMultipleNodesList ids f cs),
      ∃ m, m ∈ allNodesList cs ∧ m'.id = m.id ∧
        m'.attrs = (if ids.contains m.id then (f m).attrs else m.attrs) := by
  cases cs with
  | nil =>
    intro m' hm'
    simp [updateMultipleNodesList, allNodesList] at hm'
  | cons c cs =>
    intro m' hm'
    rw [show updateMultipleNodesList ids f (c :: cs)
        = updateMultipleNodes ids f c :: updateMultipleNodesList ids f cs from rfl,
      show allNodesList (updateMultipleNodes ids f c :: updateMultipleNodesList ids f cs)
        = allNodesOf (updateMultipleNodes ids f c)
          ++ allNodesList (updateMultipleNodesList ids f cs) from rfl] at hm'
    rw [show allNodesList (c :: cs) = allNodesOf c ++ allNodesList cs from rfl]
    rcases List.mem_append.mp hm' with h | h
    · obtain ⟨m, hmem, hid, hattrs⟩ := updateMultiple_corr ids f hf c m' h
      exact ⟨m, List.mem_append_left _ hmem, hid, hattrs⟩
    · obtain ⟨m, hmem, hid, hattrs⟩ := updateMultipleList_corr ids f hf cs m' h
      exact ⟨m, List.mem_append_right _ hmem, hid, hattrs⟩

end

/-- Claim C8: after setting `fill` through the reconciler write path
(`updateAttribute` applied to the selected nodes), every selected node of
the new tree satisfies: for a non-empty value, the bare `fill` attribute
equals the value and `getEffective(node, 'fill')` returns it; for the empty
value, the node's style string contains no `fill` entry (indeed the `style`
attribute is dropped entirely when it would render empty) and the bare
`fill` attribute is absent. -/
theorem claim_C8 (s : EditorState) (t : SvgNode) (v : String)
    (htree : s.svgTree = some t) (hne : ¬ s.selectedIds.length = 0) :
    ∀ t', (updateAttribute s "fill" v).svgTree = some t' →
      ∀ m' ∈ allNodesOf t', s.selectedIds.contains m'.id = true →
        ((¬ v = "") → lookupAttr m'.attrs "fill" = some v ∧
          getAttrOrStyle (some m') "fill" = some v) ∧
        (v = "" → getStyleValue (lookupAttr m'.attrs "style") "fill" = none ∧
          lookupAttr m'.attrs "fill" = none) := by
  intro t' ht' m' hm' hsel
  have htt : t' = updateMultipleNodes s.selectedIds (reconcileAttr "fill" v) t := by
    unfold updateAttribute at ht'
    rw [if_neg hne, htree] at ht'
    simp only [updateTreeWithHistory] at ht'
    exact (Option.some_inj.mp ht').symm
  subst htt
  obtain ⟨m, hmem, hid, hattrs⟩ := updateMultiple_corr s.selectedIds
    (reconcileAttr "fill" v) (reconcileAttr_id "fill" v) t m' hm'
  rw [hid] at hsel
  rw [if_pos hsel] at hattrs
  constructor
  · intro hv
    have hlook : lookupAttr m'.attrs "fill" = some v := by
      rw [hattrs]
      exact reconcile_fill_set m v hv
    refine ⟨hlook, ?_⟩
    unfold getAttrOrStyle
    dsimp only
    rw [hlook]
  · intro hv
    subst hv
    rw [hattrs]
    exact ⟨(reconcile_fill_clear m).2, (reconcile_fill_clear m).1⟩

/-- Witness for `claim_C8`: setting `fill` to `#ff0000` on the selected
rect `r1`, and clearing it, at the one-rect fixture. -/
theorem claim_C8_witness :
    (lookupAttr [("data-id", "r1"), ("width", "10"),
        ("style", "fill: #ff0000"), ("fill", "#ff0000")] "fill" = some "#ff0000" ∧
      getAttrOrStyle (some (.mk "r1" "rect" [("data-id", "r1"), ("width", "10"),
        ("style", "fill: #ff0000"), ("fill", "#ff0000")] [] none)) "fill"
        = some "#ff0000") ∧
    (getStyleValue (lookupAttr [("data-id", "r1"), ("width", "10")] "style") "fill"
        = none ∧
      lookupAttr [("data-id", "r1"), ("width", "10")] "fill" = none) := by
  have h1 := claim_C8 (mkEditorState (some rootRect) ["r1"] [rootRect] 0) rootRect
    "#ff0000" rfl (by decide) _ rfl
    (.mk "r1" "rect" [("data-id", "r1"), ("width", "10"),
      ("style", "fill: #ff0000"), ("fill", "#ff0000")] [] none)
    (List.Mem.tail _ (List.Mem.head _)) (by decide)
  have h2 := claim_C8 (mkEditorState (some rootRect) ["r1"] [rootRect] 0) rootRect
    "" rfl (by decide) _ rfl
    (.mk "r1" "rect" [("data-id", "r1"), ("width", "10")] [] none)
    (List.Mem.tail _ (List.Mem.head _)) (by decide)
  exact ⟨h1.1 (by decide), h2.2 rfl⟩

/-! ### Claim C4 — reference identity.
To observe JS reference identity (`===`) in a pure model, nodes carry an
allocation address: every object literal the code evaluates takes the next
value of an allocation counter.  `RNode` is `SvgNode` plus an address;
`cloneNodeA`/`updateNodeA` re-embed `cloneNode`/`updateNode` threading the
counter exactly where the JS allocates (children of an object literal are
evaluated before the object itself).  Two subtrees are reference-identical
iff they have the same address. -/

inductive RNode : Type where
  | mk (addr : Nat) (id : String) (tag : String) (attrs : List (String × String))
      (children : List RNode) (text : Option String)
deriving Repr

def RNode.addr : RNode → Nat
  | .mk ad _ _ _ _ _ => ad

def RNode.id : RNode → String
  | .mk _ i _ _ _ _ => i

def RNode.tag : RNode → String
  | .mk _ _ t _ _ _ => t

def RNode.attrs : RNode → List (String × String)
  | .mk _ _ _ a _ _ => a

def RNode.children : RNode → List RNode
  | .mk _ _ _ _ c _ => c

def RNode.text : RNode → Option String
  | .mk _ _ _ _ _ t => t

mutual

/-- Number of nodes of a subtree (the number of allocations one deep clone
performs). -/
def countA : RNode → Nat
  | .mk _ _ _ _ cs _ => 1 + countListA cs

def countListA : List RNode → Nat
  | [] => 0
  | x :: xs => countA x + countListA xs

end

mutual

/-- `cloneNode` with explicit allocation: clone the children (allocating
left to right), then allocate the node itself. -/
def cloneNodeA : RNode → Nat → RNode × Nat
  | .mk _ i t a cs txt, c =>
    let r := cloneListA cs c
    (.mk r.2 i t a r.1 txt, r.2 + 1)

def cloneListA : List RNode → Nat → List RNode × Nat
  | [], c => ([], c)
  | x :: xs, c =>
    let rx := cloneNodeA x c
    let rxs := cloneListA xs rx.2
    (rx.1 :: rxs.1, rxs.2)

end

mutual

/-- Forget addresses: the data an `RNode` carries. -/
def stripA : RNode → SvgNode
  | .mk _ i t a cs txt => .mk i t a (stripListA cs) txt

def stripListA : List RNode → List SvgNode
  | [] => []
  | x :: xs => stripA x :: stripListA xs

end

mutual

/-- Every address in a subtree, in preorder. -/
def addrsA : RNode → List Nat
  | .mk ad _ _ _ cs _ => ad :: addrsListA cs

def addrsListA : List RNode → List Nat
  | [] => []
  | x :: xs => addrsA x ++ addrsListA xs

end

mutual

/-- `findNode`'s DFS on addressed nodes. -/
def findNodeA : RNode → String → Option RNode
  | .mk ad i t a cs txt, id =>
    if i = id then some (.mk ad i t a cs txt) else findListA cs id

def findListA : List RNode → String → Option RNode
  | [], _ => none
  | x :: xs, id =>
    match findNodeA x id with
    | some r => some r
    | none => findListA xs id

end

mutual

theorem cloneListA_counter (l : List RNode) (c : Nat) :
    (cloneListA l c).2 = c + countListA l := by
  cases l with
  | nil => simp [cloneListA, countListA]
  | cons x xs =>
    unfold cloneListA countListA
    dsimp only
    rw [cloneListA_counter xs, cloneNodeA_counter x]
    omega

theorem cloneNodeA_counter (n : RNode) (c : Nat) :
    (cloneNodeA n c).2 = c + countA n := by
  cases n with
  | mk ad i t a cs txt =>
    unfold cloneNodeA countA
    dsimp only
    rw [cloneListA_counter cs]
    omega

end

mutual

theorem cloneListA_strip (l : List RNode) (c : Nat) :
    stripListA (cloneListA l c).1 = stripListA l := by
  cases l with
  | nil => rfl
  | cons x xs =>
    unfold cloneListA
    dsimp only
    unfold stripListA
    rw [cloneListA_strip xs, cloneNodeA_strip x]

theorem cloneNodeA_strip (n : RNode) (c : Nat) :
    stripA (cloneNodeA n c).1 = stripA n := by
  cases n with
  | mk ad i t a cs txt =>
    unfold cloneNodeA
    dsimp only
    unfold stripA
    rw [cloneListA_strip cs]

end

theorem countA_pos (n : RNode) : 0 < countA n := by
  cases n with
  | mk ad i t a cs txt => unfold countA; omega

mutual

theorem cloneNodeA_count (n : RNode) (c : Nat) :
    countA (cloneNodeA n c).1 = countA n := by
  cases n with
  | mk ad i t a cs txt =>
    show countA (.mk (cloneListA cs c).2 i t a (cloneListA cs c).1 txt)
      = countA (.mk ad i t a cs txt)
    unfold countA
    rw [cloneListA_count cs c]

theorem cloneListA_count (l : List RNode) (c : Nat) :
    countListA (cloneListA l c).1 = countListA l := by
  cases l with
  | nil => rfl
  | cons x xs =>
    show countListA ((cloneNodeA x c).1 :: (cloneListA xs (cloneNodeA x c).2).1)
      = countListA (x :: xs)
    unfold countListA
    rw [cloneNodeA_count x c, cloneListA_count xs _]

end

theorem cloneNodeA_children_count (n : RNode) (c : Nat) :
    countListA ((cloneNodeA n c).1).children < countA n := by
  have h1 := cloneNodeA_count n c
  cases hcl : (cloneNodeA n c).1 with
  | mk ad i t a cs txt =>
    rw [hcl] at h1
    rw [show countA (RNode.mk ad i t a cs txt) = 1 + countListA cs from rfl] at h1
    dsimp only [RNode.children]
    omega

mutual

/-- `updateNode` with explicit allocation, exactly as the JS runs: deep
clone the node (burning one address per node), apply the mutation at the
target, otherwise recurse over the clone's children. -/
def updateNodeA (yid : String) (f : RNode → RNode) : RNode → Nat → RNode × Nat
  | n, c =>
    if n.id = yid then
      let r := cloneNodeA n c
      (f r.1, r.2)
    else
      let r := cloneNodeA n c
      let rc := updateListA yid f r.1.children r.2
      (.mk r.1.addr r.1.id r.1.tag r.1.attrs rc.1 r.1.text, rc.2)
termination_by n c => 2 * countA n
decreasing_by
  simp_wf
  have h := cloneNodeA_children_count n c
  omega

def updateListA (yid : String) (f : RNode → RNode) :
    List RNode → Nat → List RNode × Nat
  | [], c => ([], c)
  | x :: xs, c =>
    let rx := updateNodeA yid f x c
    let rxs := updateListA yid f xs rx.2
    (rx.1 :: rxs.1, rxs.2)
termination_by l c => 2 * countListA l + 1
decreasing_by
  · simp_wf
    have h1 : countListA (x :: xs) = countA x + countListA xs := rfl
    have h2 := countA_pos x
    omega
  · simp_wf
    have h1 : countListA (x :: xs) = countA x + countListA xs := rfl
    have h2 := countA_pos x
    omega

end

theorem updateNodeA_then (yid : String) (f : RNode → RNode) (m : RNode) (c : Nat)
    (h : m.id = yid) :
    updateNodeA yid f m c = (f (cloneNodeA m c).1, (cloneNodeA m c).2) := by
  unfold updateNodeA
  rw [if_pos h]

theorem updateNodeA_else (yid : String) (f : RNode → RNode) (m : RNode) (c : Nat)
    (h : ¬ m.id = yid) :
    updateNodeA yid f m c =
      (.mk (cloneNodeA m c).1.addr (cloneNodeA m c).1.id (cloneNodeA m c).1.tag
        (cloneNodeA m c).1.attrs
        (updateListA yid f (cloneNodeA m c).1.children (cloneNodeA m c).2).1
        (cloneNodeA m c).1.text,
       (updateListA yid f (cloneNodeA m c).1.children (cloneNodeA m c).2).2) := by
  unfold updateNodeA
  rw [if_neg h]

theorem updateListA_nil (yid : String) (f : RNode → RNode) (c : Nat) :
    updateListA yid f [] c = ([], c) := by
  unfold updateListA
  rfl

theorem updateListA_cons (yid : String) (f : RNode → RNode) (x : RNode)
    (xs : List RNode) (c : Nat) :
    updateListA yid f (x :: xs) c =
      ((updateNodeA yid f x c).1
          :: (updateListA yid f xs (updateNodeA yid f x c).2).1,
       (updateListA yid f xs (updateNodeA yid f x c).2).2) := by
  conv_lhs => rw [updateListA.eq_def]

theorem cloneNodeA_mk (ad : Nat) (i t : String) (a : List (String × String))
    (cs : List RNode) (txt : Option String) (c : Nat) :
    cloneNodeA (.mk ad i t a cs txt) c
      = (.mk (cloneListA cs c).2 i t a (cloneListA cs c).1 txt,
         (cloneListA cs c).2 + 1) := rfl

mutual

theorem findNodeIn_eq_none_iff (s : SvgNode) (id : String) :
    findNodeIn s id = none ↔ id ∉ idsOf s := by
  cases s with
  | mk i t a cs txt =>
    rw [show findNodeIn (.mk i t a cs txt) id
        = (if i = id then some (.mk i t a cs txt) else findNodeInList cs id)
      from rfl]
    rw [show idsOf (.mk i t a cs txt) = i :: idsOfList cs from rfl]
    by_cases h : i = id
    · rw [if_pos h]
      simp [h]
    · rw [if_neg h]
      rw [findNodeInList_eq_none_iff cs id]
      constructor
      · intro hno hmem
        rcases List.mem_cons.mp hmem with rfl | hmem2
        · exact h rfl
        · exact hno hmem2
      · intro hno hmem
        exact hno (List.mem_cons_of_mem i hmem)

theorem findNodeInList_eq_none_iff (l : List SvgNode) (id : String) :
    findNodeInList l id = none ↔ id ∉ idsOfList l := by
  cases l with
  | nil => simp [findNodeInList, idsOfList]
  | cons x xs =>
    rw [show findNodeInList (x :: xs) id
        = (match findNodeIn x id with
           | some found => some found
           | none => findNodeInList xs id) from rfl]
    rw [show idsOfList (x :: xs) = idsOf x ++ idsOfList xs from rfl]
    cases hfx : findNodeIn x id with
    | some r =>
      simp only []
      constructor
      · intro h
        exact absurd h (by simp)
      · intro h
        have : id ∈ idsOf x := by
          by_contra hmem
          rw [(findNodeIn_eq_none_iff x id).mpr hmem] at hfx
          exact Option.noConfusion hfx
        exact absurd (List.mem_append_left _ this) h
    | none =>
      simp only []
      rw [findNodeInList_eq_none_iff xs id]
      have hx : id ∉ idsOf x := (findNodeIn_eq_none_iff x id).mp hfx
      constructor
      · intro h hmem
        rcases List.mem_append.mp hmem with h2 | h2
        · exact hx h2
        · exact h h2
      · intro h hmem
        exact h (List.mem_append_right _ hmem)

end

theorem mem_of_findNodeIn_some (s : SvgNode) (id : String) (r : SvgNode)
    (h : findNodeIn s id = some r) : id ∈ idsOf s := by
  by_contra hmem
  rw [(findNodeIn_eq_none_iff s id).mpr hmem] at h
  exact Option.noConfusion h

theorem mem_of_findNodeInList_some (l : List SvgNode) (id : String) (r : SvgNode)
    (h : findNodeInList l id = some r) : id ∈ idsOfList l := by
  by_contra hmem
  rw [(findNodeInList_eq_none_iff l id).mpr hmem] at h
  exact Option.noConfusion h

mutual

theorem findNodeA_eq_none_iff (n : RNode) (id : String) :
    findNodeA n id = none ↔ id ∉ idsOf (stripA n) := by
  cases n with
  | mk ad i t a cs txt =>
    rw [show findNodeA (.mk ad i t a cs txt) id
        = (if i = id then some (.mk ad i t a cs txt) else findListA cs id)
      from rfl]
    rw [show stripA (.mk ad i t a cs txt) = .mk i t a (stripListA cs) txt from rfl]
    rw [show idsOf (.mk i t a (stripListA cs) txt)
        = i :: idsOfList (stripListA cs) from rfl]
    by_cases h : i = id
    · rw [if_pos h]
      simp [h]
    · rw [if_neg h]
      rw [findListA_eq_none_iff cs id]
      constructor
      · intro hno hmem
        rcases List.mem_cons.mp hmem with rfl | hmem2
        · exact h rfl
        · exact hno hmem2
      · intro hno hmem
        exact hno (List.mem_cons_of_mem i hmem)

theorem findListA_eq_none_iff (l : List RNode) (id : String) :
    findListA l id = none ↔ id ∉ idsOfList (stripListA l) := by
  cases l with
  | nil => simp [findListA, stripListA, idsOfList]
  | cons x xs =>
    rw [show findListA (x :: xs) id
        = (match findNodeA x id with
           | some r => some r
           | none => findListA xs id) from rfl]
    rw [show stripListA (x :: xs) = stripA x :: stripListA xs from rfl]
    rw [show idsOfList (stripA x :: stripListA xs)
        = idsOf (stripA x) ++ idsOfList (stripListA xs) from rfl]
    cases hfx : findNodeA x id with
    | some r =>
      simp only []
      constructor
      · intro h
        exact absurd h (by simp)
      · intro h
        have : id ∈ idsOf (stripA x) := by
          by_contra hmem
          rw [(findNodeA_eq_none_iff x id).mpr hmem] at hfx
          exact Option.noConfusion hfx
        exact absurd (List.mem_append_left _ this) h
    | none =>
      simp only []
      rw [findListA_eq_none_iff xs id]
      have hx : id ∉ idsOf (stripA x) := (findNodeA_eq_none_iff x id).mp hfx
      constructor
      · intro h hmem
        rcases List.mem_append.mp hmem with h2 | h2
        · exact hx h2
        · exact h h2
      · intro h hmem
        exact h (List.mem_append_right _ hmem)

end

theorem stripA_mk (ad : Nat) (i t : String) (a : List (String × String))
    (cs : List RNode) (txt : Option String) :
    stripA (.mk ad i t a cs txt) = .mk i t a (stripListA cs) txt := rfl

theorem stripListA_cons (x : RNode) (xs : List RNode) :
    stripListA (x :: xs) = stripA x :: stripListA xs := rfl

theorem idsOf_mk (i t : String) (a : List (String × String))
    (cs : List SvgNode) (txt : Option String) :
    idsOf (.mk i t a cs txt) = i :: idsOfList cs := rfl

theorem idsOfList_cons (x : SvgNode) (xs : List SvgNode) :
    idsOfList (x :: xs) = idsOf x ++ idsOfList xs := rfl

theorem findNodeA_mk (ad : Nat) (i t : String) (a : List (String × String))
    (cs : List RNode) (txt : Option String) (id : String) :
    findNodeA (.mk ad i t a cs txt) id
      = if i = id then some (.mk ad i t a cs txt) else findListA cs id := rfl

theorem findNodeIn_mk (i t : String) (a : List (String × String))
    (cs : List SvgNode) (txt : Option String) (id : String) :
    findNodeIn (.mk i t a cs txt) id
      = if i = id then some (.mk i t a cs txt) else findNodeInList cs id := rfl

theorem addrsA_mk (ad : Nat) (i t : String) (a : List (String × String))
    (cs : List RNode) (txt : Option String) :
    addrsA (.mk ad i t a cs txt) = ad :: addrsListA cs := rfl

theorem addrsListA_cons (x : RNode) (xs : List RNode) :
    addrsListA (x :: xs) = addrsA x ++ addrsListA xs := rfl

mutual

theorem updateNodeA_counter_le (yid : String) (f : RNode → RNode)
    (s : SvgNode) : ∀ (m : RNode) (c : Nat), stripA m = s →
      c ≤ (updateNodeA yid f m c).2 := by
  cases s with
  | mk i t a scs stxt =>
    intro m c hstrip
    cases m with
    | mk ad i' t' a' mcs txt' =>
      rw [stripA_mk] at hstrip
      injection hstrip with hi ht ha hcs htxt
      by_cases h : (RNode.mk ad i' t' a' mcs txt').id = yid
      · rw [updateNodeA_then yid f _ c h]
        dsimp only
        rw [cloneNodeA_counter]
        exact Nat.le_add_right c _
      · rw [updateNodeA_else yid f _ c h]
        dsimp only
        have h1 := updateListA_counter_le yid f scs
          (cloneNodeA (RNode.mk ad i' t' a' mcs txt') c).1.children
          (cloneNodeA (RNode.mk ad i' t' a' mcs txt') c).2
          (by rw [cloneNodeA_mk]
              dsimp only [RNode.children]
              rw [cloneListA_strip, hcs])
        have h2 := cloneNodeA_counter (RNode.mk ad i' t' a' mcs txt') c
        omega

theorem updateListA_counter_le (yid : String) (f : RNode → RNode)
    (sl : List SvgNode) : ∀ (ml : List RNode) (c : Nat), stripListA ml = sl →
      c ≤ (updateListA yid f ml c).2 := by
  cases sl with
  | nil =>
    intro ml c hstrip
    cases ml with
    | nil =>
      rw [updateListA_nil yid f c]
    | cons mx mxs =>
      rw [stripListA_cons] at hstrip
      exact absurd hstrip (by simp)
  | cons sx sxs =>
    intro ml c hstrip
    cases ml with
    | nil => exact absurd hstrip (by simp [stripListA])
    | cons mx mxs =>
      rw [stripListA_cons] at hstrip
      injection hstrip with h1 h2
      rw [updateListA_cons]
      dsimp only
      have ha := updateNodeA_counter_le yid f sx mx c h1
      have hb := updateListA_counter_le yid f sxs mxs (updateNodeA yid f mx c).2 h2
      omega

end

mutual

theorem updateNodeA_strip_frame (yid : String) (f : RNode → RNode)
    (s : SvgNode) : ∀ (m : RNode) (c : Nat), stripA m = s → yid ∉ idsOf s →
      stripA (updateNodeA yid f m c).1 = s := by
  cases s with
  | mk i t a scs stxt =>
    intro m c hstrip hyid
    cases m with
    | mk ad i' t' a' mcs txt' =>
      rw [stripA_mk] at hstrip
      injection hstrip with hi ht ha hcs htxt
      rw [idsOf_mk] at hyid
      have hne : ¬ (RNode.mk ad i' t' a' mcs txt').id = yid := by
        dsimp only [RNode.id]
        rw [hi]
        intro hcontra
        exact hyid (by rw [← hcontra]; exact List.mem_cons_self i _)
      rw [updateNodeA_else yid f _ c hne, cloneNodeA_mk]
      dsimp only [RNode.id, RNode.tag, RNode.attrs, RNode.children, RNode.text]
      rw [stripA_mk]
      have hl := updateListA_strip_frame yid f scs (cloneListA mcs c).1
        ((cloneListA mcs c).2 + 1) (by rw [cloneListA_strip, hcs])
        (fun hm => hyid (List.mem_cons_of_mem i hm))
      rw [hl, hi, ht, ha, htxt]

theorem updateListA_strip_frame (yid : String) (f : RNode → RNode)
    (sl : List SvgNode) : ∀ (ml : List RNode) (c : Nat), stripListA ml = sl →
      yid ∉ idsOfList sl → stripListA (updateListA yid f ml c).1 = sl := by
  cases sl with
  | nil =>
    intro ml c hstrip hyid
    cases ml with
    | nil =>
      rw [updateListA_nil yid f c]
      rfl
    | cons mx mxs =>
      rw [stripListA_cons] at hstrip
      exact absurd hstrip (by simp)
  | cons sx sxs =>
    intro ml c hstrip hyid
    cases ml with
    | nil => exact absurd hstrip (by simp [stripListA])
    | cons mx mxs =>
      rw [stripListA_cons] at hstrip
      injection hstrip with h1 h2
      rw [idsOfList_cons] at hyid
      rw [updateListA_cons]
      dsimp only
      rw [stripListA_cons]
      rw [updateNodeA_strip_frame yid f sx mx c h1
            (fun hm => hyid (List.mem_append_left _ hm)),
          updateListA_strip_frame yid f sxs mxs (updateNodeA yid f mx c).2 h2
            (fun hm => hyid (List.mem_append_right _ hm))]

end

mutual

theorem updateNodeA_xid_frame (yid xid : String) (f : RNode → RNode)
    (hf : ∀ m : RNode, xid ∉ idsOf (stripA m) → xid ∉ idsOf (stripA (f m)))
    (s : SvgNode) : ∀ (m : RNode) (c : Nat), stripA m = s → xid ∉ idsOf s →
      xid ∉ idsOf (stripA (updateNodeA yid f m c).1) := by
  cases s with
  | mk i t a scs stxt =>
    intro m c hstrip hx
    cases m with
    | mk ad i' t' a' mcs txt' =>
      rw [stripA_mk] at hstrip
      injection hstrip with hi ht ha hcs htxt
      rw [idsOf_mk] at hx
      by_cases h : (RNode.mk ad i' t' a' mcs txt').id = yid
      · rw [updateNodeA_then yid f _ c h]
        dsimp only
        apply hf
        rw [cloneNodeA_strip, stripA_mk, idsOf_mk, hcs, hi]
        exact hx
      · rw [updateNodeA_else yid f _ c h, cloneNodeA_mk]
        dsimp only
        rw [stripA_mk, idsOf_mk]
        intro hmem
        rcases List.mem_cons.mp hmem with heq | hmem2
        · exact hx (by rw [heq, hi]; exact List.mem_cons_self _ _)
        · exact updateListA_xid_frame yid xid f hf scs (cloneListA mcs c).1
            ((cloneListA mcs c).2 + 1) (by rw [cloneListA_strip, hcs])
            (fun hm => hx (List.mem_cons_of_mem i hm)) hmem2

theorem updateListA_xid_frame (yid xid : String) (f : RNode → RNode)
    (hf : ∀ m : RNode, xid ∉ idsOf (stripA m) → xid ∉ idsOf (stripA (f m)))
    (sl : List SvgNode) : ∀ (ml : List RNode) (c : Nat), stripListA ml = sl →
      xid ∉ idsOfList sl →
      xid ∉ idsOfList (stripListA (updateListA yid f ml c).1) := by
  cases sl with
  | nil =>
    intro ml c hstrip hx
    cases ml with
    | nil =>
      rw [updateListA_nil yid f c]
      simp [stripListA, idsOfList]
    | cons mx mxs =>
      rw [stripListA_cons] at hstrip
      exact absurd hstrip (by simp)
  | cons sx sxs =>
    intro ml c hstrip hx
    cases ml with
    | nil => exact absurd hstrip (by simp [stripListA])
    | cons mx mxs =>
      rw [stripListA_cons] at hstrip
      injection hstrip with h1 h2
      rw [idsOfList_cons] at hx
      rw [updateListA_cons]
      dsimp only
      rw [stripListA_cons, idsOfList_cons]
      intro hmem
      rcases List.mem_append.mp hmem with hm | hm
      · exact updateNodeA_xid_frame yid xid f hf sx mx c h1
          (fun hq => hx (List.mem_append_left _ hq)) hm
      · exact updateListA_xid_frame yid xid f hf sxs mxs (updateNodeA yid f mx c).2 h2
          (fun hq => hx (List.mem_append_right _ hq)) hm

end

theorem findNodeInList_nil (id : String) :
    findNodeInList ([] : List SvgNode) id = none := rfl

theorem findNodeInList_cons (x : SvgNode) (xs : List SvgNode) (id : String) :
    findNodeInList (x :: xs) id
      = match findNodeIn x id with
        | some found => some found
        | none => findNodeInList xs id := rfl

theorem findListA_cons (x : RNode) (xs : List RNode) (id : String) :
    findListA (x :: xs) id
      = match findNodeA x id with
        | some r => some r
        | none => findListA xs id := rfl

mutual

theorem updateNodeA_find_fresh (yid xid : String) (f : RNode → RNode)
    (hf : ∀ m : RNode, xid ∉ idsOf (stripA m) → xid ∉ idsOf (stripA (f m)))
    (s : SvgNode) : ∀ (m : RNode) (c : Nat) (sx : SvgNode), stripA m = s →
      (idsOf s).Nodup → findNodeIn s xid = some sx →
      findNodeIn sx yid = none →
      (∀ sy, findNodeIn s yid = some sy → findNodeIn sy xid = none) →
      ∃ nx, findNodeA (updateNodeA yid f m c).1 xid = some nx ∧
        stripA nx = sx ∧ c ≤ nx.addr := by
  cases s with
  | mk i t a scs stxt =>
    intro m c sx hstrip hnd hfind hxy hyx
    cases m with
    | mk ad i' t' a' mcs txt' =>
      rw [stripA_mk] at hstrip
      injection hstrip with hi ht ha hcs htxt
      by_cases hyid : i = yid
      · have hsy : findNodeIn (SvgNode.mk i t a scs stxt) yid
            = some (SvgNode.mk i t a scs stxt) := by
          rw [findNodeIn_mk, if_pos hyid]
        have hnone := hyx _ hsy
        rw [hfind] at hnone
        exact Option.noConfusion hnone
      · have hneq : ¬ (RNode.mk ad i' t' a' mcs txt').id = yid := by
          dsimp only [RNode.id]
          rw [hi]
          exact hyid
        by_cases hxid : i = xid
        · have hfind' : findNodeIn (SvgNode.mk i t a scs stxt) xid
              = some (SvgNode.mk i t a scs stxt) := by
            rw [findNodeIn_mk, if_pos hxid]
          rw [hfind'] at hfind
          injection hfind with hsx
          rw [updateNodeA_else yid f _ c hneq, cloneNodeA_mk]
          dsimp only [RNode.id, RNode.tag, RNode.attrs, RNode.children,
            RNode.text, RNode.addr]
          refine ⟨RNode.mk (cloneListA mcs c).2 i' t' a'
            (updateListA yid f (cloneListA mcs c).1
              ((cloneListA mcs c).2 + 1)).1 txt', ?_, ?_, ?_⟩
          · rw [findNodeA_mk, if_pos (hi.trans hxid)]
          · rw [stripA_mk]
            have hyid_not : yid ∉ idsOfList scs := by
              have h0 : findNodeIn (SvgNode.mk i t a scs stxt) yid = none := by
                rw [hsx]
                exact hxy
              have h1 := (findNodeIn_eq_none_iff _ yid).mp h0
              rw [idsOf_mk] at h1
              exact fun hm => h1 (List.mem_cons_of_mem _ hm)
            rw [updateListA_strip_frame yid f scs (cloneListA mcs c).1
                  ((cloneListA mcs c).2 + 1) (by rw [cloneListA_strip, hcs])
                  hyid_not]
            rw [← hsx, hi, ht, ha, htxt]
          · dsimp only [RNode.addr]
            rw [cloneListA_counter]
            exact Nat.le_add_right c _
        · have hfind2 : findNodeInList scs xid = some sx := by
            rw [findNodeIn_mk, if_neg hxid] at hfind
            exact hfind
          have hnd2 : (idsOfList scs).Nodup := by
            rw [idsOf_mk] at hnd
            exact List.Nodup.of_cons hnd
          have hyx2 : ∀ sy, findNodeInList scs yid = some sy →
              findNodeIn sy xid = none := by
            intro sy hsy
            apply hyx
            rw [findNodeIn_mk, if_neg hyid]
            exact hsy
          rw [updateNodeA_else yid f _ c hneq, cloneNodeA_mk]
          dsimp only [RNode.id, RNode.tag, RNode.attrs, RNode.children,
            RNode.text, RNode.addr]
          obtain ⟨nx, hfa, hstr, hle⟩ := updateListA_find_fresh yid xid f hf scs
            (cloneListA mcs c).1 ((cloneListA mcs c).2 + 1) sx
            (by rw [cloneListA_strip, hcs]) hnd2 hfind2 hxy hyx2
          refine ⟨nx, ?_, hstr, ?_⟩
          · rw [findNodeA_mk, if_neg (fun hcon => hxid (hi ▸ hcon))]
            exact hfa
          · show c ≤ nx.addr
            have h2 := cloneListA_counter mcs c
            omega

theorem updateListA_find_fresh (yid xid : String) (f : RNode → RNode)
    (hf : ∀ m : RNode, xid ∉ idsOf (stripA m) → xid ∉ idsOf (stripA (f m)))
    (sl : List SvgNode) : ∀ (ml : List RNode) (c : Nat) (sx : SvgNode),
      stripListA ml = sl → (idsOfList sl).Nodup →
      findNodeInList sl xid = some sx → findNodeIn sx yid = none →
      (∀ sy, findNodeInList sl yid = some sy → findNodeIn sy xid = none) →
      ∃ nx, findListA (updateListA yid f ml c).1 xid = some nx ∧
        stripA nx = sx ∧ c ≤ nx.addr := by
  cases sl with
  | nil =>
    intro ml c sx hstrip hnd hfind hxy hyx
    rw [findNodeInList_nil] at hfind
    exact Option.noConfusion hfind
  | cons sx0 sxs =>
    intro ml c sx hstrip hnd hfind hxy hyx
    cases ml with
    | nil => exact absurd hstrip (by simp [stripListA])
    | cons mx mxs =>
      rw [stripListA_cons] at hstrip
      injection hstrip with h1 h2
      rw [idsOfList_cons] at hnd
      obtain ⟨hnd1, hnd2, hdisj⟩ := List.nodup_append.mp hnd
      rw [updateListA_cons]
      dsimp only
      rw [findNodeInList_cons] at hfind
      cases hfx : findNodeIn sx0 xid with
      | some r =>
        rw [hfx] at hfind
        simp only [] at hfind
        injection hfind with hreq
        rw [hreq] at hfx
        have hyx0 : ∀ sy, findNodeIn sx0 yid = some sy →
            findNodeIn sy xid = none := by
          intro sy hsy
          apply hyx
          rw [findNodeInList_cons, hsy]
        obtain ⟨nx, hfa, hstr, hle⟩ := updateNodeA_find_fresh yid xid f hf sx0
          mx c sx h1 hnd1 hfx hxy hyx0
        refine ⟨nx, ?_, hstr, hle⟩
        rw [findListA_cons, hfa]
      | none =>
        rw [hfx] at hfind
        simp only [] at hfind
        have hx0 : xid ∉ idsOf sx0 := (findNodeIn_eq_none_iff sx0 xid).mp hfx
        have hxr : findNodeA (updateNodeA yid f mx c).1 xid = none := by
          rw [findNodeA_eq_none_iff]
          exact updateNodeA_xid_frame yid xid f hf sx0 mx c h1 hx0
        have hyx1 : ∀ sy, findNodeInList sxs yid = some sy →
            findNodeIn sy xid = none := by
          intro sy hsy
          apply hyx
          rw [findNodeInList_cons]
          cases hfy : findNodeIn sx0 yid with
          | some sy0 =>
            have m1 : yid ∈ idsOf sx0 := mem_of_findNodeIn_some sx0 yid sy0 hfy
            have m2 : yid ∈ idsOfList sxs :=
              mem_of_findNodeInList_some sxs yid sy hsy
            exact (hdisj m1 m2).elim
          | none =>
            simp only []
            exact hsy
        obtain ⟨nx, hfa, hstr, hle⟩ := updateListA_find_fresh yid xid f hf sxs
          mxs (updateNodeA yid f mx c).2 sx h2 hnd2 hfind hxy hyx1
        refine ⟨nx, ?_, hstr, ?_⟩
        · rw [findListA_cons, hxr]
          simp only []
          exact hfa
        · have hm := updateNodeA_counter_le yid f sx0 mx c h1
          omega

end

/-- A three-node tree with distinct addresses 0, 1, 2: an `<svg>` root with
two `<rect>` children `a` and `b`. Updating `b` should, per the claim, leave
`a`'s subtree reference-identical (same address). -/
def treeA : RNode :=
  .mk 0 "root" "svg" []
    [.mk 1 "a" "rect" [] [] none, .mk 2 "b" "rect" [] [] none] none

/-- C4, counterexample. The claim says `updateNode(T, Y, f)` shares the
subtree of any node X off the ancestor path to Y with the input tree
(reference identity). In the allocation model — every `{...node}` /
`cloneNode` burns a fresh address — updating `b` of `treeA` (identity
mutation, next free address 3) rebuilds `a` at address 6, while `a` in the
input sits at address 1, although the stripped (data) tree is unchanged:
`updateNode` deep-clones everything and shares nothing. -/
theorem claim_C4_counterexample :
    (findNodeA (updateNodeA "b" (fun m => m) treeA 3).1 "a").map RNode.addr
        = some 6 ∧
      (findNodeA treeA "a").map RNode.addr = some 1 ∧
      stripA (updateNodeA "b" (fun m => m) treeA 3).1 = stripA treeA ∧
      (6 : Nat) ≠ 1 := by
  have hb : updateNodeA "b" (fun m => m) (RNode.mk 4 "b" "rect" [] [] none) 7
      = (RNode.mk 7 "b" "rect" [] [] none, 8) := by
    rw [updateNodeA_then "b" (fun m => m) (RNode.mk 4 "b" "rect" [] [] none) 7
      (by decide)]
    rfl
  have ha : updateNodeA "b" (fun m => m) (RNode.mk 3 "a" "rect" [] [] none) 6
      = (RNode.mk 6 "a" "rect" [] [] none, 7) := by
    rw [updateNodeA_else "b" (fun m => m) (RNode.mk 3 "a" "rect" [] [] none) 6
      (by decide)]
    rw [show (cloneNodeA (RNode.mk 3 "a" "rect" [] [] none) 6).1.children
        = ([] : List RNode) from rfl]
    rw [updateListA_nil]
    rfl
  have hlist : updateListA "b" (fun m => m)
      [RNode.mk 3 "a" "rect" [] [] none, RNode.mk 4 "b" "rect" [] [] none] 6
      = ([RNode.mk 6 "a" "rect" [] [] none,
          RNode.mk 7 "b" "rect" [] [] none], 8) := by
    rw [updateListA_cons, ha]
    dsimp only
    rw [updateListA_cons, hb]
    dsimp only
    rw [updateListA_nil]
  have e1 : updateNodeA "b" (fun m => m) treeA 3
      = (RNode.mk 5 "root" "svg" []
          [RNode.mk 6 "a" "rect" [] [] none,
           RNode.mk 7 "b" "rect" [] [] none] none, 8) := by
    rw [updateNodeA_else "b" (fun m => m) treeA 3 (by decide)]
    rw [show (cloneNodeA treeA 3).1.children
        = [RNode.mk 3 "a" "rect" [] [] none,
           RNode.mk 4 "b" "rect" [] [] none] from rfl]
    rw [show (cloneNodeA treeA 3).2 = 6 from rfl]
    rw [hlist]
    rfl
  refine ⟨?_, rfl, ?_, by decide⟩
  · rw [e1]
    rfl
  · rw [e1]
    rfl

/-- C4, amended. `updateNode` deep-clones the whole tree, so no subtree of
the result is reference-identical to a subtree of the input; what holds
instead is value-level preservation with fresh identity: if `xid` names a
node off the path to the target `yid` (its subtree does not contain `yid`,
and no `yid` subtree contains it), the result contains a node for `xid`
whose stripped content is exactly the input's `xid` subtree but whose
address is freshly allocated — not an address of any node of the input. -/
theorem claim_C4_amended (T : RNode) (yid xid : String) (f : RNode → RNode)
    (c : Nat) (sx : SvgNode)
    (hf : ∀ m : RNode, xid ∉ idsOf (stripA m) → xid ∉ idsOf (stripA (f m)))
    (hnd : (idsOf (stripA T)).Nodup)
    (hfind : findNodeIn (stripA T) xid = some sx)
    (hxy : findNodeIn sx yid = none)
    (hyx : ∀ sy, findNodeIn (stripA T) yid = some sy →
      findNodeIn sy xid = none)
    (hc : ∀ a2 ∈ addrsA T, a2 < c) :
    ∃ nx, findNodeA (updateNodeA yid f T c).1 xid = some nx ∧
      stripA nx = sx ∧ nx.addr ∉ addrsA T := by
  obtain ⟨nx, hfa, hstr, hle⟩ := updateNodeA_find_fresh yid xid f hf (stripA T)
    T c sx rfl hnd hfind hxy hyx
  refine ⟨nx, hfa, hstr, fun hmem => ?_⟩
  have h2 := hc _ hmem
  omega

/-- Witness for `claim_C4_amended`: in `treeA` (addresses up to 2, next free
3), node `a` is off the path to target `b`; the update result holds an `a`
node with the same stripped content and an address outside `{0, 1, 2}`. -/
theorem claim_C4_witness :
    ∃ nx, findNodeA (updateNodeA "b" (fun m => m) treeA 3).1 "a"
        = some nx ∧
      stripA nx = SvgNode.mk "a" "rect" [] [] none ∧
      nx.addr ∉ addrsA treeA :=
  claim_C4_amended treeA "b" "a" (fun m => m) 3
    (SvgNode.mk "a" "rect" [] [] none)
    (fun _ h => h) (by decide) rfl rfl
    (fun sy hsy => by
      injection hsy with h
      rw [← h]
      rfl)
    (by decide)

end SvgEditor
